import Mathlib

/-!
A verification development for the LegacyLens repository: a shallow Lean
embedding of the structural chunking engine (scripts/lib/chunker.ts), the
reranker (src/lib/rerank.ts), the analysis-mode quality gate and streaming
assembler (src/app/api/query/route.ts), and the file-context lookup
(src/app/api/file-context/route.ts), together with theorems settling the
behavioural properties stated in the repository's documentation.

Modelling conventions:
* JavaScript strings are Lean `String`s; `String.length` counts code points
  where JavaScript counts UTF-16 units (they agree on all ASCII input, which
  is what COBOL sources contain).
* The regular expressions of chunker.ts are small anchored patterns over
  ASCII word/space/digit classes; each is embedded as a deterministic
  character-list matcher (the patterns are backtracking-free because the
  repeated classes are disjoint from what follows them).
* External collaborators (the embedding service, the chat model, the vector
  index) are parameters: their responses appear as explicit arguments, and
  a thrown exception or malformed reply is a constructor of `GradeOutcome`.
* Server-sent event streams are event lists (`StreamEvent`); JavaScript
  numbers are `ℚ` (scores) or `Nat` (line numbers, sizes).
-/

/-! ## Data model (src/lib/types.ts, scripts/lib/discover.ts) -/

/-- `chunkType` of `CodeChunk` in src/lib/types.ts:
`"division" | "section" | "paragraph" | "data" | "fixed"`. -/
inductive ChunkType where
  | division
  | «section»
  | paragraph
  | data
  | fixed
deriving DecidableEq

/-- The string value of a `chunkType`, as stored in the TS union type. -/
def chunkTypeStr : ChunkType → String
  | .division => "division"
  | .«section» => "section"
  | .paragraph => "paragraph"
  | .data => "data"
  | .fixed => "fixed"

/-- `CodeChunk` of src/lib/types.ts. -/
structure CodeChunk where
  id : String
  content : String
  filePath : String
  startLine : Nat
  endLine : Nat
  chunkType : ChunkType
  name : String
  parentSection : Option String
  programId : Option String
deriving DecidableEq

/-- `DiscoveredFile` of scripts/lib/discover.ts (the fields chunker.ts reads). -/
structure DiscoveredFile where
  filePath : String
  extension : String
  content : String
deriving DecidableEq

/-- `LineInfo` of scripts/lib/chunker.ts: a line of text with its 1-based
line number. -/
structure LineInfo where
  text : String
  lineNumber : Nat
deriving DecidableEq

/-! ## Character classes and regex matchers (chunker.ts)

JavaScript's `\s`, `\w`, `\d` restricted to ASCII, which is all that COBOL
fixed-format sources contain. -/

/-- JavaScript `\s` (ASCII part: space, tab, vertical tab, form feed, CR, LF). -/
def isWsChar (c : Char) : Bool :=
  c = ' ' || c = '\t' || c = '\x0B' || c = '\x0C' || c = '\r' || c = '\n'

/-- JavaScript `\w`: `[A-Za-z0-9_]`. -/
def isWordChar (c : Char) : Bool :=
  c.isAlpha || c.isDigit || c = '_'

/-- The class `[\w-]` used by the chunker's name patterns. -/
def isWordDash (c : Char) : Bool :=
  isWordChar c || c = '-'

/-- `\s*` at the front of a character list. -/
def dropWs (cs : List Char) : List Char :=
  cs.dropWhile isWsChar

/-- JavaScript `toUpperCase` over the character list (ASCII; agrees with
`String.toUpper` and kept in list form so proofs and witnesses can
evaluate it). -/
def strUpper (s : String) : String :=
  String.mk (s.data.map Char.toUpper)

/-- JavaScript `toLowerCase` over the character list (ASCII). -/
def strLower (s : String) : String :=
  String.mk (s.data.map Char.toLower)

/-- Case-insensitive literal match (`/i`): strip `pat` (given in upper case)
from the front of `cs`, returning the remainder. -/
def stripCI : List Char → List Char → Option (List Char)
  | [], cs => some cs
  | _ :: _, [] => none
  | p :: ps, c :: cs => if c.toUpper = p then stripCI ps cs else none

/-- `\s+` followed by a non-space token: require at least one space, then
drop the whole run (the token after it never starts with a space, so the
greedy match is the only one). -/
def wsThen : List Char → Option (List Char)
  | [] => none
  | c :: rest => if isWsChar c then some (dropWs rest) else none

/-- `DIVISION_RE = /^\s*(IDENTIFICATION|ENVIRONMENT|DATA|PROCEDURE)\s+DIVISION/i`;
returns the captured keyword upper-cased (the source immediately upper-cases
the capture). -/
def divisionMatch (s : String) : Option String :=
  let cs := dropWs s.data
  ["IDENTIFICATION", "ENVIRONMENT", "DATA", "PROCEDURE"].findSome? fun kw =>
    match stripCI kw.data cs with
    | none => none
    | some rest =>
      match wsThen rest with
      | none => none
      | some rest2 => if (stripCI "DIVISION".data rest2).isSome then some kw else none

/-- `SECTION_RE = /^\s*([\w-]+)\s+SECTION\s*\.?\s*$/i`; returns the raw
captured name (upper-cased by the caller, as in the source). -/
def sectionMatch (s : String) : Option String :=
  let cs := dropWs s.data
  let w := cs.takeWhile isWordDash
  if w.isEmpty then none
  else
    match wsThen (cs.dropWhile isWordDash) with
    | none => none
    | some rest2 =>
      match stripCI "SECTION".data rest2 with
      | none => none
      | some rest3 =>
        let rest4 := dropWs rest3
        let rest5 := match rest4 with
          | '.' :: r => r
          | r => r
        if (dropWs rest5).isEmpty then some (String.mk w) else none

/-- `PARAGRAPH_RE = /^\s*([\w-]+)\s*\.\s*$/`; returns the raw captured name. -/
def paragraphMatch (s : String) : Option String :=
  let cs := dropWs s.data
  let w := cs.takeWhile isWordDash
  if w.isEmpty then none
  else
    match dropWs (cs.dropWhile isWordDash) with
    | '.' :: r => if (dropWs r).isEmpty then some (String.mk w) else none
    | _ => none

/-- `/^\s*\d/`: the first non-space character is a digit (level numbers). -/
def startsWithDigit (s : String) : Bool :=
  match dropWs s.data with
  | c :: _ => c.isDigit
  | [] => false

/-- `text.trim().length > 0`. -/
def trimNonempty (s : String) : Bool :=
  !(dropWs s.data).isEmpty

/-- `/^\s*01\s+/i`: a level-01 data item header. -/
def level01Match (s : String) : Bool :=
  match stripCI "01".data (dropWs s.data) with
  | some rest => (wsThen rest).isSome
  | none => false

/-- The capture of `/^\s*01\s+([\w-]+)/i`. -/
def level01Name (s : String) : Option String :=
  match stripCI "01".data (dropWs s.data) with
  | none => none
  | some rest =>
    match wsThen rest with
    | none => none
    | some rest2 =>
      let w := rest2.takeWhile isWordDash
      if w.isEmpty then none else some (String.mk w)

/-- The capture of `PROGRAM_ID_RE = /^\s*PROGRAM-ID\.\s*([\w-]+)/i`
(returned with its original casing, as in the source). -/
def programIdMatch (s : String) : Option String :=
  match stripCI "PROGRAM-ID.".data (dropWs s.data) with
  | none => none
  | some rest =>
    let rest2 := dropWs rest
    let w := rest2.takeWhile isWordDash
    if w.isEmpty then none else some (String.mk w)

/-- `isCommentLine` of chunker.ts: `*` in column 7 (index 6) for fixed
format, or `*>` after leading whitespace for free format. -/
def isCommentLine (line : String) : Bool :=
  (decide (7 ≤ line.data.length) && line.data[6]? == some '*')
    || (match dropWs line.data with
        | '*' :: '>' :: _ => true
        | _ => false)

/-- `extractProgramId` of chunker.ts: first `PROGRAM-ID` match wins. -/
def extractProgramId (lines : List LineInfo) : Option String :=
  lines.findSome? fun l => programIdMatch l.text

/-! ## The structural scanner (`splitCobolStructurally`) -/

/-- `RawChunk` of chunker.ts. -/
structure RawChunk where
  lines : List LineInfo
  chunkType : ChunkType
  name : String
  parentSection : Option String
deriving DecidableEq

/-- The mutable locals of `splitCobolStructurally`, made an explicit state. -/
structure SplitState where
  chunks : List RawChunk
  current : List LineInfo
  currentType : ChunkType
  currentName : String
  currentDivision : String
  currentSection : String
deriving DecidableEq

/-- Initial scanner state: `currentType = "division"`, `currentName =
"PREAMBLE"`, empty division/section labels. -/
def initState : SplitState :=
  { chunks := [], current := [], currentType := .division, currentName := "PREAMBLE",
    currentDivision := "", currentSection := "" }

/-- `flush()` of `splitCobolStructurally`: push the accumulator as a chunk
labelled with the current state (`parentSection` is
`currentSection || currentDivision || undefined`), unless it is empty. -/
def flushSt (st : SplitState) : SplitState :=
  if st.current.isEmpty then st
  else
    { st with
      chunks := st.chunks ++
        [{ lines := st.current, chunkType := st.currentType, name := st.currentName,
           parentSection :=
             if st.currentSection ≠ "" then some st.currentSection
             else if st.currentDivision ≠ "" then some st.currentDivision
             else none }],
      current := [] }

/-- The level-01 data-item test of the scan loop (its last boundary check):
fires inside the data division, or while the current chunk type is already
`data`. Returns the new `(currentType, currentName, currentDivision,
currentSection)`. -/
def dataBoundary (st : SplitState) (text : String) :
    Option (ChunkType × String × String × String) :=
  if (st.currentDivision == "DATA DIVISION" || st.currentType == ChunkType.data)
      && level01Match text then
    some (ChunkType.data, (((level01Name text).map strUpper).getD "DATA-ITEM"),
      st.currentDivision, st.currentSection)
  else none

/-- The boundary decision of one iteration of the scan loop, in the source's
priority order: division header, then non-comment section header, then (only
inside the procedure division, on non-comment non-blank lines without a
leading digit) paragraph label, then level-01 data item. `none` means the
line is appended to the current accumulator. The returned tuple is the new
`(currentType, currentName, currentDivision, currentSection)`. -/
def boundary (st : SplitState) (text : String) :
    Option (ChunkType × String × String × String) :=
  match divisionMatch text with
  | some kw =>
    some (ChunkType.division, kw ++ " DIVISION", kw ++ " DIVISION", "")
  | none =>
    match sectionMatch text, isCommentLine text with
    | some secName, false =>
      some (ChunkType.«section», strUpper secName, st.currentDivision, strUpper secName)
    | _, _ =>
      if st.currentDivision == "PROCEDURE DIVISION" && !isCommentLine text
          && trimNonempty text then
        match paragraphMatch text with
        | some p =>
          if !startsWithDigit text then
            some (ChunkType.paragraph, strUpper p, st.currentDivision, st.currentSection)
          else dataBoundary st text
        | none => dataBoundary st text
      else dataBoundary st text

/-- One iteration of the scan loop of `splitCobolStructurally`: on a
boundary, flush the accumulator under the old state, adopt the new labels
and start the accumulator with this line; otherwise append the line. -/
def stepLine (st : SplitState) (line : LineInfo) : SplitState :=
  match boundary st line.text with
  | some (t, n, d, sec) =>
    let st' := flushSt st
    { st' with currentType := t, currentName := n, currentDivision := d,
               currentSection := sec, current := [line] }
  | none => { st with current := st.current ++ [line] }

/-- `splitCobolStructurally` of chunker.ts: scan all lines, then flush the
remainder. -/
def splitCobolStructurally (lines : List LineInfo) : List RawChunk :=
  (flushSt (lines.foldl stepLine initState)).chunks

/-! ## Fixed-size windowing (`fixedSizeChunks`) -/

/-- `MAX_CHUNK_SIZE` of chunker.ts. -/
def MAX_CHUNK_SIZE : Nat := 1500

/-- `OVERLAP_LINES` of chunker.ts. -/
def OVERLAP_LINES : Nat := 3

/-- The inner loop of `fixedSizeChunks`: consume lines while the running
character count (`len(text)+1` per line, checked before each push) is below
`MAX_CHUNK_SIZE`; returns the consumed window and the rest. -/
def takeChunk (c : Nat) : List LineInfo → List LineInfo × List LineInfo
  | [] => ([], [])
  | l :: ls =>
    if c < MAX_CHUNK_SIZE then
      let p := takeChunk (c + l.text.length + 1) ls
      (l :: p.1, p.2)
    else ([], l :: ls)

/-- `fixedSizeChunks` of chunker.ts, with the array cursor translated to
list coordinates: the source sets the next cursor to
`max(i - OVERLAP_LINES, chunkStartIdx + 1)` whenever input remains; relative
to the window just emitted (which starts at `chunkStartIdx` and ends before
`i`) that is a forward step of `max (w.length - OVERLAP_LINES) 1` lines, so
the next input is `w.drop (max (w.length - OVERLAP_LINES) 1) ++ rest`. -/
def fixedSizeChunks (lines : List LineInfo) : List (List LineInfo) :=
  if h : lines = [] then []
  else
    let w := (takeChunk 0 lines).1
    let r := (takeChunk 0 lines).2
    if hr : r = [] then [w]
    else w :: fixedSizeChunks (w.drop (max (w.length - OVERLAP_LINES) 1) ++ r)
termination_by lines.length
decreasing_by
  have happ : ∀ (c : Nat) (l : List LineInfo), (takeChunk c l).1 ++ (takeChunk c l).2 = l := by
    intro c l
    induction l generalizing c with
    | nil => simp [takeChunk]
    | cons x xs ih =>
      simp only [takeChunk]
      split
      · simpa using ih _
      · simp
  have hne : (takeChunk 0 lines).1 ≠ [] := by
    cases lines with
    | nil => exact absurd rfl h
    | cons x xs => simp [takeChunk, MAX_CHUNK_SIZE]
  have hlen : (takeChunk 0 lines).1.length + (takeChunk 0 lines).2.length = lines.length := by
    rw [← List.length_append, happ]
  have hpos : 0 < (takeChunk 0 lines).1.length := List.length_pos.mpr hne
  simp only [List.length_append, List.length_drop]
  omega

/-! ## Chunk assembly (`chunkCobol`, `chunkFixedSize`, `chunkFile`) -/

/-- `makeId` of chunker.ts: sanitize the path (`[^a-zA-Z0-9]` → `_`) and
append `_L<startLine>`. -/
def sanitizeId (s : String) : String :=
  String.mk (s.data.map fun c => if c.isAlphanum then c else '_')

/-- Deterministic chunk id from path and start line. -/
def makeId (filePath : String) (startLine : Nat) : String :=
  sanitizeId filePath ++ "_L" ++ toString startLine

/-- `sub[0].lineNumber` (0 as the out-of-range default; every list this is
applied to is proved nonempty). -/
def firstLineNum (ls : List LineInfo) : Nat :=
  (ls.head?.map LineInfo.lineNumber).getD 0

/-- `sub[sub.length - 1].lineNumber`. -/
def lastLineNum (ls : List LineInfo) : Nat :=
  (ls.getLast?.map LineInfo.lineNumber).getD 0

/-- `sub.map(l => l.text).join("\n")`. -/
def joinLines (ls : List LineInfo) : String :=
  match ls with
  | [] => ""
  | a :: rest => rest.foldl (fun acc l => acc ++ "\n" ++ l.text) a.text

/-- The loop body of `chunkCobol`'s oversize branch: emit each window as a
chunk keeping the parent's labels, named with a part suffix when there are
several windows. `total` is `subChunks.length`, `i` the running index. -/
def emitSub (file : DiscoveredFile) (programId : Option String) (raw : RawChunk)
    (total : Nat) : Nat → List (List LineInfo) → List CodeChunk
  | _, [] => []
  | i, w :: ws =>
    { id := makeId file.filePath (firstLineNum w),
      content := joinLines w,
      filePath := file.filePath,
      startLine := firstLineNum w,
      endLine := lastLineNum w,
      chunkType := raw.chunkType,
      name := if 1 < total then raw.name ++ " (part " ++ toString (i + 1) ++ ")" else raw.name,
      parentSection := raw.parentSection,
      programId := programId } :: emitSub file programId raw total (i + 1) ws

/-- One iteration of `chunkCobol`'s loop over raw chunks: split further when
the content exceeds `MAX_CHUNK_SIZE * 2`, otherwise emit the raw chunk
whole. -/
def emitRaw (file : DiscoveredFile) (programId : Option String) (raw : RawChunk) :
    List CodeChunk :=
  if MAX_CHUNK_SIZE * 2 < (joinLines raw.lines).length then
    emitSub file programId raw (fixedSizeChunks raw.lines).length 0 (fixedSizeChunks raw.lines)
  else
    [{ id := makeId file.filePath (firstLineNum raw.lines),
       content := joinLines raw.lines,
       filePath := file.filePath,
       startLine := firstLineNum raw.lines,
       endLine := lastLineNum raw.lines,
       chunkType := raw.chunkType,
       name := raw.name,
       parentSection := raw.parentSection,
       programId := programId }]

/-- `chunkCobol` of chunker.ts. -/
def chunkCobol (lines : List LineInfo) (file : DiscoveredFile)
    (programId : Option String) : List CodeChunk :=
  ((splitCobolStructurally lines).map (emitRaw file programId)).flatten

/-- The loop body of `chunkFixedSize`: one chunk per window, `chunkType`
`"fixed"`, named `"<path> (part N)"`. -/
def emitWindows (file : DiscoveredFile) : Nat → List (List LineInfo) → List CodeChunk
  | _, [] => []
  | i, w :: ws =>
    { id := makeId file.filePath (firstLineNum w),
      content := joinLines w,
      filePath := file.filePath,
      startLine := firstLineNum w,
      endLine := lastLineNum w,
      chunkType := .fixed,
      name := file.filePath ++ " (part " ++ toString (i + 1) ++ ")",
      parentSection := none,
      programId := none } :: emitWindows file (i + 1) ws

/-- `chunkFixedSize` of chunker.ts. -/
def chunkFixedSize (lines : List LineInfo) (file : DiscoveredFile) : List CodeChunk :=
  emitWindows file 0 (fixedSizeChunks lines)

/-- JavaScript `content.split("\n")` over the character list. -/
def splitOnNl : List Char → List String
  | [] => [""]
  | c :: cs =>
    let rest := splitOnNl cs
    if c = '\n' then "" :: rest
    else
      match rest with
      | [] => [String.mk [c]]
      | r :: rs => String.mk (c :: r.data) :: rs

/-- `file.content.split("\n").map((text, i) => ({text, lineNumber: i + 1}))`,
with the enumerated map written as a counter recursion. -/
def numberLines (s : Nat) : List String → List LineInfo
  | [] => []
  | t :: ts => { text := t, lineNumber := s } :: numberLines (s + 1) ts

/-- The line records `chunkFile` builds from a document. -/
def mkLines (content : String) : List LineInfo :=
  numberLines 1 (splitOnNl content.data)

/-- The number of lines of a document, as `chunkFile` counts them. -/
def docLineCount (file : DiscoveredFile) : Nat :=
  (splitOnNl file.content.data).length

/-- `chunkFile` of chunker.ts: COBOL extensions take the structural path,
everything else fixed-size windowing. -/
def chunkFile (file : DiscoveredFile) : List CodeChunk :=
  let lines := mkLines file.content
  if [".cob", ".cbl", ".cpy"].contains (strLower file.extension) then
    chunkCobol lines file (extractProgramId lines)
  else
    chunkFixedSize lines file

/-! ## Specification-side predicates for the chunker proofs -/

/-- The elements of a list are consecutively numbered starting at `s`
(the shape of the line records `chunkFile` builds). -/
def numbered : Nat → List LineInfo → Prop
  | _, [] => True
  | s, x :: xs => x.lineNumber = s ∧ numbered (s + 1) xs

/-- The running `charCount` contribution of a list of lines
(`len(text) + 1` per line). -/
def charSum (ls : List LineInfo) : Nat :=
  (ls.map fun x => x.text.length + 1).sum

/-! ## Retrieval results and the reranker (src/lib/rerank.ts)

`rerankResults` makes one chat-completion call and parses its JSON reply.
The call is external, so its outcome is an explicit argument of type
`GradeOutcome`: `threw` is a raised exception (network error, timeout, or a
`JSON.parse` failure — all caught by the function's `try`), `noContent` a
reply whose message content is missing, `notArray` a parsed object whose
`scores` field fails `Array.isArray`, and `scores entries` a parsed array,
where an entry is `some (index, score)` when both fields satisfy
`typeof === "number"` and `none` otherwise (such entries are skipped by the
source's validation loop). JavaScript numbers are `ℚ`. -/

/-- `SearchResult` of src/lib/types.ts, plus the optional `rerankScore`
the reranker attaches. -/
structure SearchResult where
  chunk : CodeChunk
  score : ℚ
  rerankScore : Option ℚ := none
deriving DecidableEq

/-- The outcome of the reranker's grading call (see the section comment). -/
inductive GradeOutcome where
  | threw
  | noContent
  | notArray
  | scores (entries : List (Option (ℚ × ℚ)))
deriving DecidableEq

/-- The outcomes under which the source's fallback (`return results.slice(0,
topK)`) runs: a raised exception, missing content, or a `scores` field that
is not an array. -/
def isGradeFailure : GradeOutcome → Prop
  | .threw => True
  | .noContent => True
  | .notArray => True
  | .scores _ => False

/-- Building and reading the `Map` of `{index, score}` entries: later
`Map.set` calls overwrite earlier ones, and invalid entries are skipped. -/
def scoreLookup (entries : List (Option (ℚ × ℚ))) (i : ℚ) : Option ℚ :=
  entries.foldl
    (fun acc e =>
      match e with
      | some kv => if kv.1 = i then some kv.2 else acc
      | none => acc)
    none

/-- `results.map((r, i) => ...)`: pair every element with its index. -/
def withIdx {α : Type} : Nat → List α → List (Nat × α)
  | _, [] => []
  | i, r :: rs => (i, r) :: withIdx (i + 1) rs

/-- Stable insertion for the descending sort by rerank score: an element
goes after every element already placed whose key is `≥` its own, which is
exactly the order JavaScript's stable `sort((a, b) => b.rerankScore -
a.rerankScore)` produces. -/
def insertDesc (x : SearchResult × ℚ) :
    List (SearchResult × ℚ) → List (SearchResult × ℚ)
  | [] => [x]
  | y :: ys => if x.2 ≤ y.2 then y :: insertDesc x ys else x :: y :: ys

/-- The stable descending sort of scored results. -/
def sortDesc (l : List (SearchResult × ℚ)) : List (SearchResult × ℚ) :=
  l.foldl (fun acc x => insertDesc x acc) []

/-- `rerankResults` of src/lib/rerank.ts: passthrough when no more
candidates than `topK`; on a failed or malformed grading call, the first
`topK` in original order; otherwise score every candidate (absent indices
default to 0), sort descending (stably), truncate to `topK`, and attach
`rerankScore`. -/
def rerankResults (results : List SearchResult) (topK : Nat)
    (outcome : GradeOutcome) : List SearchResult :=
  if results.length ≤ topK then results
  else
    match outcome with
    | .threw => results.take topK
    | .noContent => results.take topK
    | .notArray => results.take topK
    | .scores entries =>
      let withScores := (withIdx 0 results).map
        fun p => (p.2, (scoreLookup entries (p.1 : ℚ)).getD 0)
      ((sortDesc withScores).take topK).map
        fun p => { p.1 with rerankScore := some p.2 }

/-! ## The analysis route (src/app/api/query/route.ts)

The route embeds the (possibly prefix-augmented) query, fetches `topK * 2`
candidates, reranks with the raw query, applies the quality gate, and either
streams a generated answer or a fixed refusal. Retrieval results, the
grading outcome and the generation stream's deltas are parameters; the
emitted server-sent events are a list. -/

/-- `ModeConfig` of src/lib/prompts.ts. -/
structure ModeConfig where
  systemPrompt : String
  defaultTopK : Nat
  queryPrefix : Option String
deriving DecidableEq

/-- `RERANK_THRESHOLD` of the analysis route. -/
def RERANK_THRESHOLD : ℚ := 3

/-- `PINECONE_THRESHOLD` of the analysis route. -/
def PINECONE_THRESHOLD : ℚ := 0.3

/-- The quality gate of the analysis route: look at `results[0]` only; with
a `rerankScore` compare it to `RERANK_THRESHOLD`, without one compare the
similarity score to `PINECONE_THRESHOLD`; fail when there is no result. -/
def qualityGate (results : List SearchResult) : Bool :=
  match results.head? with
  | none => false
  | some top =>
    let topScore := match top.rerankScore with
      | some rs => rs
      | none => top.score
    let threshold := match top.rerankScore with
      | some _ => RERANK_THRESHOLD
      | none => PINECONE_THRESHOLD
    decide (threshold ≤ topScore)

/-- The three server-sent event variants the route emits. -/
inductive StreamEvent where
  | sources (results : List SearchResult)
  | token (content : String)
  | done
deriving DecidableEq

/-- The fixed refusal message of the gate-failure branch. -/
def NO_RESULTS_MESSAGE : String :=
  "No relevant code found for this query. Try being more specific or using terms from the codebase (e.g., file names, COBOL keywords, or program identifiers)."

/-- `config.queryPrefix ? config.queryPrefix + query : query` (the empty
string is falsy in JavaScript). -/
def searchQueryOf (config : ModeConfig) (query : String) : String :=
  match config.queryPrefix with
  | some p => if p ≠ "" then p ++ query else query
  | none => query

/-- The per-result context header
`[i+1] path:start-end (chunkType: name)`. -/
def resultHeader (i : Nat) (c : CodeChunk) : String :=
  "[" ++ toString (i + 1) ++ "] " ++ c.filePath ++ ":" ++ toString c.startLine
    ++ "-" ++ toString c.endLine ++ " (" ++ chunkTypeStr c.chunkType ++ ": "
    ++ c.name ++ ")"

/-- The context block sent to the generation model: headers plus contents,
joined by the separator. -/
def contextOf (results : List SearchResult) : String :=
  String.intercalate "\n\n---\n\n"
    ((withIdx 0 results).map fun p => resultHeader p.1 p.2.chunk ++ "\n" ++ p.2.chunk.content)

/-- The user message of the generation call: the context block and the
literal request text. -/
def userMessage (context query : String) : String :=
  "## Retrieved Code Snippets\n\n" ++ context ++ "\n\n## Request\n" ++ query

/-- The token events forwarded from the generation stream: one per delta
that is present and non-empty (`if (delta)`). -/
def tokenEvents (deltas : List (Option String)) : List StreamEvent :=
  deltas.filterMap fun d =>
    match d with
    | some s => if s = "" then none else some (StreamEvent.token s)
    | none => none

/-- What one analysis request does, as observed at its boundaries: the text
sent to the embedding service, the query given to the reranker, the final
result list, the emitted event stream, and the generation call's (system,
user) messages — `none` when no generation call is made. -/
structure AnalysisResponse where
  embedInput : String
  rerankQuery : String
  results : List SearchResult
  events : List StreamEvent
  generation : Option (String × String)
deriving DecidableEq

/-- The analysis route handler after input validation: `topK` falls back to
the mode's default, the embedding input is the prefix-augmented query, the
reranker gets the raw query, and the quality gate picks between the
generation stream and the fixed refusal. `candidates` stands for the
vector-index matches, `outcome` for the grading call, `deltas` for the
generation stream. -/
def runAnalysis (config : ModeConfig) (query : String)
    (candidates : List SearchResult) (outcome : GradeOutcome)
    (deltas : List (Option String)) (topKBody : Option Nat) : AnalysisResponse :=
  let topK := topKBody.getD config.defaultTopK
  let searchQuery := searchQueryOf config query
  let results := rerankResults candidates topK outcome
  if qualityGate results then
    { embedInput := searchQuery, rerankQuery := query, results := results,
      events := StreamEvent.sources results :: tokenEvents deltas ++ [StreamEvent.done],
      generation := some (config.systemPrompt, userMessage (contextOf results) query) }
  else
    { embedInput := searchQuery, rerankQuery := query, results := results,
      events := [StreamEvent.sources [], StreamEvent.token NO_RESULTS_MESSAGE,
                 StreamEvent.done],
      generation := none }

/-! ## The file-context route (src/app/api/file-context/route.ts) -/

/-- The metadata record of a vector-index match, with every field optional:
the route defaults each one at the boundary. -/
structure MetaRecord where
  content : Option String
  filePath : Option String
  startLine : Option Nat
  endLine : Option Nat
  chunkType : Option ChunkType
  name : Option String
  parentSection : Option String
  programId : Option String
deriving DecidableEq

/-- One match returned by the vector index. -/
structure IndexMatch where
  id : String
  score : Option ℚ
  metadata : MetaRecord
deriving DecidableEq

/-- The boundary parsing of a match into a `CodeChunk` (the `??` defaults
of the route). -/
def parseChunk (m : IndexMatch) : CodeChunk :=
  { id := m.id,
    content := m.metadata.content.getD "",
    filePath := m.metadata.filePath.getD "",
    startLine := m.metadata.startLine.getD 0,
    endLine := m.metadata.endLine.getD 0,
    chunkType := m.metadata.chunkType.getD ChunkType.fixed,
    name := m.metadata.name.getD "",
    parentSection := m.metadata.parentSection,
    programId := m.metadata.programId }

/-- The request shape the route sends to the vector index: a vector, a
`topK`, the metadata flag, and an optional `$eq` filter on one metadata
field. -/
structure IndexQuery where
  vector : List ℚ
  topK : Nat
  includeMetadata : Bool
  filterEq : Option (String × String)
deriving DecidableEq

/-- The embedding dimensionality. src/lib/openai.ts is not part of the
corpus; the value mirrors scripts/create-index.ts and the README
(text-embedding-3-small, 1536 dimensions). -/
def EMBEDDING_DIMENSIONS : Nat := 1536

/-- The query the file-context route issues: a zero vector of the embedding
dimensionality, `topK: 200`, metadata requested, `filter: { filePath:
{ $eq: filePath } }`. -/
def fileContextQuery (filePath : String) : IndexQuery :=
  { vector := List.replicate EMBEDDING_DIMENSIONS 0,
    topK := 200,
    includeMetadata := true,
    filterEq := some ("filePath", filePath) }

/-- Stable insertion for the ascending sort
`.sort((a, b) => a.startLine - b.startLine)`. -/
def insertAsc (x : CodeChunk) : List CodeChunk → List CodeChunk
  | [] => [x]
  | y :: ys => if y.startLine ≤ x.startLine then y :: insertAsc x ys else x :: y :: ys

/-- The stable ascending sort by `startLine`. -/
def sortByStartLine (l : List CodeChunk) : List CodeChunk :=
  l.foldl (fun acc x => insertAsc x acc) []

/-- The chunk list the file-context route returns for the index's matches:
parse each match, then reorder ascending by `startLine`. -/
def fileContextChunks (ms : List IndexMatch) : List CodeChunk :=
  sortByStartLine (ms.map parseChunk)

/-! ## Decimal-representation helpers (for id distinctness) -/

/-- The value of a decimal digit string (read through `Nat.repr`'s digit
characters). -/
def digitsVal (cs : List Char) : Nat :=
  cs.foldl (fun a c => 10 * a + (c.toNat - 48)) 0

/-! ## Line-numbering invariants -/

@[simp] theorem numbered_nil (s : Nat) : numbered s [] := trivial

@[simp] theorem numbered_cons {s : Nat} {x : LineInfo} {xs : List LineInfo} :
    numbered s (x :: xs) ↔ x.lineNumber = s ∧ numbered (s + 1) xs := Iff.rfl

theorem numbered_append {s : Nat} {l1 l2 : List LineInfo} :
    numbered s (l1 ++ l2) ↔ numbered s l1 ∧ numbered (s + l1.length) l2 := by
  induction l1 generalizing s with
  | nil => simp
  | cons x xs ih =>
    have harith : s + 1 + xs.length = s + (xs.length + 1) := by omega
    simp [ih, and_assoc, harith]

theorem numbered_numberLines (ts : List String) (s : Nat) :
    numbered s (numberLines s ts) := by
  induction ts generalizing s with
  | nil => simp [numberLines]
  | cons t ts ih => simpa [numberLines] using ih (s + 1)

theorem length_numberLines (ts : List String) (s : Nat) :
    (numberLines s ts).length = ts.length := by
  induction ts generalizing s with
  | nil => rfl
  | cons t ts ih => simp [numberLines, ih]

theorem numbered_mkLines (content : String) : numbered 1 (mkLines content) :=
  numbered_numberLines _ 1

theorem length_mkLines (content : String) :
    (mkLines content).length = (splitOnNl content.data).length :=
  length_numberLines _ 1

theorem numbered_mem {s : Nat} {l : List LineInfo} (h : numbered s l)
    {x : LineInfo} (hx : x ∈ l) :
    s ≤ x.lineNumber ∧ x.lineNumber < s + l.length := by
  induction l generalizing s with
  | nil => cases hx
  | cons y ys ih =>
    rcases List.mem_cons.mp hx with rfl | hx'
    · obtain ⟨h1, -⟩ := numbered_cons.mp h
      simp only [List.length_cons]
      omega
    · have := ih h.2 hx'
      simp only [List.length_cons]
      omega

theorem numbered_first {s : Nat} {l : List LineInfo} (h : numbered s l)
    (hl : l ≠ []) : firstLineNum l = s := by
  cases l with
  | nil => exact absurd rfl hl
  | cons x xs => simpa [firstLineNum] using h.1

theorem numbered_last {s : Nat} {l : List LineInfo} (h : numbered s l)
    (hl : l ≠ []) : lastLineNum l = s + l.length - 1 := by
  induction l generalizing s with
  | nil => exact absurd rfl hl
  | cons x xs ih =>
    cases xs with
    | nil => simpa [lastLineNum, List.getLast?] using h.1
    | cons y ys =>
      have h2 := ih h.2 (by simp)
      have : lastLineNum (x :: y :: ys) = lastLineNum (y :: ys) := by
        simp [lastLineNum, List.getLast?_cons_cons]
      rw [this, h2]
      simp only [List.length_cons]
      omega

theorem numbered_drop {s : Nat} {l : List LineInfo} (h : numbered s l) (k : Nat) :
    numbered (s + k) (l.drop k) := by
  induction k generalizing s l with
  | zero => simpa using h
  | succ k ih =>
    cases l with
    | nil => simp
    | cons x xs =>
      have := ih h.2
      simpa [List.drop_succ_cons, Nat.add_comm, Nat.add_assoc, Nat.add_left_comm] using this

theorem numbered_exists {s : Nat} {l : List LineInfo} (h : numbered s l)
    {n : Nat} (h1 : s ≤ n) (h2 : n < s + l.length) :
    ∃ x ∈ l, x.lineNumber = n := by
  induction l generalizing s with
  | nil =>
    simp only [List.length_nil, Nat.add_zero] at h2
    exact absurd h2 (by omega)
  | cons x xs ih =>
    by_cases hn : n = s
    · exact ⟨x, List.mem_cons_self _ _, by rw [h.1, hn]⟩
    · have h2' : n < (s + 1) + xs.length := by simp at h2; omega
      obtain ⟨y, hy, hyn⟩ := ih h.2 (by omega) h2'
      exact ⟨y, List.mem_cons_of_mem _ hy, hyn⟩

/-! ## Character-count accounting for windows -/

@[simp] theorem charSum_nil : charSum [] = 0 := rfl

@[simp] theorem charSum_cons (x : LineInfo) (xs : List LineInfo) :
    charSum (x :: xs) = x.text.length + 1 + charSum xs := by
  simp [charSum, Nat.add_comm, Nat.add_assoc, Nat.add_left_comm]

@[simp] theorem charSum_append (l1 l2 : List LineInfo) :
    charSum (l1 ++ l2) = charSum l1 + charSum l2 := by
  simp [charSum]

theorem joinLines_foldl_length (rest : List LineInfo) (acc : String) :
    (rest.foldl (fun acc l => acc ++ "\n" ++ l.text) acc).length
      = acc.length + charSum rest := by
  induction rest generalizing acc with
  | nil => simp
  | cons x xs ih =>
    have hnl : ("\n" : String).length = 1 := rfl
    rw [List.foldl_cons, ih]
    simp only [String.length_append, hnl, charSum_cons]
    omega

theorem joinLines_length {ls : List LineInfo} (h : ls ≠ []) :
    (joinLines ls).length + 1 = charSum ls := by
  cases ls with
  | nil => exact absurd rfl h
  | cons a rest =>
    simp only [joinLines, joinLines_foldl_length, charSum_cons]
    omega

/-! ## Window decomposition lemmas -/

theorem takeChunk_append (c : Nat) (l : List LineInfo) :
    (takeChunk c l).1 ++ (takeChunk c l).2 = l := by
  induction l generalizing c with
  | nil => simp [takeChunk]
  | cons x xs ih =>
    simp only [takeChunk]
    split
    · simpa using ih _
    · simp

theorem takeChunk_fst_ne_nil (c : Nat) (l : List LineInfo) (hl : l ≠ [])
    (hc : c < MAX_CHUNK_SIZE) : (takeChunk c l).1 ≠ [] := by
  cases l with
  | nil => exact absurd rfl hl
  | cons x xs => simp [takeChunk, hc]

theorem takeChunk_last_split (c : Nat) (l : List LineInfo)
    (hc : c < MAX_CHUNK_SIZE) :
    (takeChunk c l).1 = [] ∨
      ∃ w' last, (takeChunk c l).1 = w' ++ [last] ∧ c + charSum w' < MAX_CHUNK_SIZE := by
  induction l generalizing c with
  | nil => left; rfl
  | cons x xs ih =>
    simp only [takeChunk, if_pos hc]
    by_cases hc2 : c + x.text.length + 1 < MAX_CHUNK_SIZE
    · rcases ih _ hc2 with hnil | ⟨w', last, heq, hlt⟩
      · right
        refine ⟨[], x, ?_, ?_⟩
        · simp [hnil]
        · simpa using hc
      · right
        refine ⟨x :: w', last, ?_, ?_⟩
        · simp [heq]
        · simp only [charSum_cons]
          omega
    · have hfst : (takeChunk (c + x.text.length + 1) xs).1 = [] := by
        cases xs <;> simp [takeChunk, hc2]
      right
      refine ⟨[], x, ?_, ?_⟩
      · simp [hfst]
      · simpa using hc

theorem window_oversize (l : List LineInfo) (hl : l ≠ []) :
    (joinLines (takeChunk 0 l).1).length ≤ 2 * MAX_CHUNK_SIZE ∨
      ∃ x ∈ (takeChunk 0 l).1, MAX_CHUNK_SIZE < x.text.length := by
  have hw : (takeChunk 0 l).1 ≠ [] :=
    takeChunk_fst_ne_nil 0 l hl (by decide)
  rcases takeChunk_last_split 0 l (by decide) with hnil | ⟨w', last, heq, hlt⟩
  · exact absurd hnil hw
  · by_cases hbig : (joinLines (takeChunk 0 l).1).length ≤ 2 * MAX_CHUNK_SIZE
    · exact Or.inl hbig
    · right
      refine ⟨last, by rw [heq]; simp, ?_⟩
      have hjl := joinLines_length hw
      rw [heq] at hjl hbig
      simp only [charSum_append, charSum_cons, charSum_nil] at hjl
      omega

/-! ## Equation lemmas for `fixedSizeChunks` -/

theorem fixedSizeChunks_nil : fixedSizeChunks [] = [] := by
  rw [fixedSizeChunks]
  simp

theorem fixedSizeChunks_eq_single (lines : List LineInfo) (hl : lines ≠ [])
    (hr : (takeChunk 0 lines).2 = []) :
    fixedSizeChunks lines = [(takeChunk 0 lines).1] := by
  rw [fixedSizeChunks]
  simp [hl, hr]

theorem fixedSizeChunks_eq_cons (lines : List LineInfo) (hl : lines ≠ [])
    (hr : (takeChunk 0 lines).2 ≠ []) :
    fixedSizeChunks lines = (takeChunk 0 lines).1 ::
      fixedSizeChunks ((takeChunk 0 lines).1.drop
          (max ((takeChunk 0 lines).1.length - OVERLAP_LINES) 1)
        ++ (takeChunk 0 lines).2) := by
  rw [fixedSizeChunks]
  simp [hl, hr]

theorem firstLineNum_append_left (a b : List LineInfo) (ha : a ≠ []) :
    firstLineNum (a ++ b) = firstLineNum a := by
  cases a with
  | nil => exact absurd rfl ha
  | cons x xs => simp [firstLineNum]

/-- The windowing bundle: for consecutively numbered input, the windows of
`fixedSizeChunks` are nonempty consecutively numbered slices that stay
inside the input range; they cover the input; adjacent windows make strict
forward progress and overlap by at most `OVERLAP_LINES` lines; window starts
are strictly increasing overall; the window count is at most the line
count; a window whose joined content exceeds `2 * MAX_CHUNK_SIZE` contains
a single line longer than `MAX_CHUNK_SIZE`; and the first window is the
first `takeChunk` slice. -/
theorem fixedSizeChunks_spec :
    ∀ (N : Nat) (lines : List LineInfo) (s : Nat), lines.length ≤ N →
      numbered s lines →
      ((fixedSizeChunks lines).length ≤ lines.length
      ∧ (∀ w ∈ fixedSizeChunks lines, w ≠ [] ∧
           ∃ t, numbered t w ∧ s ≤ t ∧ t + w.length ≤ s + lines.length)
      ∧ (∀ x ∈ lines, ∃ w ∈ fixedSizeChunks lines, x ∈ w)
      ∧ (∀ w ∈ fixedSizeChunks lines, ∀ x ∈ w, x ∈ lines)
      ∧ List.Chain' (fun w1 w2 => firstLineNum w1 < firstLineNum w2 ∧
           lastLineNum w1 ≤ firstLineNum w2 + OVERLAP_LINES) (fixedSizeChunks lines)
      ∧ List.Pairwise (fun w1 w2 => firstLineNum w1 < firstLineNum w2)
           (fixedSizeChunks lines)
      ∧ (∀ w ∈ fixedSizeChunks lines,
           (joinLines w).length ≤ 2 * MAX_CHUNK_SIZE ∨
             ∃ x ∈ w, MAX_CHUNK_SIZE < x.text.length)
      ∧ (lines ≠ [] → ∃ ws', fixedSizeChunks lines = (takeChunk 0 lines).1 :: ws')) := by
  intro N
  induction N with
  | zero =>
    intro lines s hlen _
    have hnil : lines = [] := List.length_eq_zero.mp (Nat.le_zero.mp hlen)
    subst hnil
    simp [fixedSizeChunks_nil]
  | succ N ih =>
    intro lines s hlen hnum
    by_cases hl : lines = []
    · subst hl; simp [fixedSizeChunks_nil]
    · obtain ⟨w, r, hwr⟩ : ∃ w r, takeChunk 0 lines = (w, r) := ⟨_, _, rfl⟩
      have happ : w ++ r = lines := by
        have h0 := takeChunk_append 0 lines
        rw [hwr] at h0
        exact h0
      have hwne : w ≠ [] := by
        have h0 := takeChunk_fst_ne_nil 0 lines hl (by decide)
        rw [hwr] at h0
        exact h0
      have hwpos : 0 < w.length := List.length_pos.mpr hwne
      have hnum2 : numbered s w ∧ numbered (s + w.length) r := by
        rw [← happ] at hnum; exact numbered_append.mp hnum
      have hlen_wr : w.length + r.length = lines.length := by
        rw [← List.length_append, happ]
      have hlpos : 0 < lines.length := List.length_pos.mpr hl
      have hover : (joinLines w).length ≤ 2 * MAX_CHUNK_SIZE ∨
          ∃ x ∈ w, MAX_CHUNK_SIZE < x.text.length := by
        have h0 := window_oversize lines hl
        rw [hwr] at h0
        exact h0
      by_cases hr : r = []
      · have heq : fixedSizeChunks lines = [w] := by
          have h0 := fixedSizeChunks_eq_single lines hl (by rw [hwr]; exact hr)
          rw [hwr] at h0
          exact h0
        have hwl : w = lines := by rw [← happ, hr, List.append_nil]
        rw [heq]
        refine ⟨?_, ?_, ?_, ?_, ?_, ?_, ?_, ?_⟩
        · simp only [List.length_singleton]
          omega
        · intro w' hw'
          rw [List.mem_singleton] at hw'
          subst hw'
          exact ⟨hwne, s, hnum2.1, le_refl s, by omega⟩
        · intro x hx
          exact ⟨w, List.mem_singleton_self w, hwl ▸ hx⟩
        · intro w' hw' x hx
          rw [List.mem_singleton] at hw'
          subst hw'
          exact hwl ▸ hx
        · exact List.chain'_singleton w
        · exact List.pairwise_singleton _ w
        · intro w' hw'
          rw [List.mem_singleton] at hw'
          subst hw'
          exact hover
        · intro _
          refine ⟨[], ?_⟩
          rw [hwr]
      · have heq : fixedSizeChunks lines = w ::
            fixedSizeChunks (w.drop (max (w.length - OVERLAP_LINES) 1) ++ r) := by
          have h0 := fixedSizeChunks_eq_cons lines hl (by rw [hwr]; exact hr)
          rw [hwr] at h0
          exact h0
        have hk1 : 1 ≤ max (w.length - OVERLAP_LINES) 1 := Nat.le_max_right _ 1
        have hk2 : w.length - OVERLAP_LINES ≤ max (w.length - OVERLAP_LINES) 1 :=
          Nat.le_max_left _ 1
        have hkw : max (w.length - OVERLAP_LINES) 1 ≤ w.length :=
          Nat.max_le.mpr ⟨Nat.sub_le _ _, hwpos⟩
        have hl'num : numbered (s + max (w.length - OVERLAP_LINES) 1)
            (w.drop (max (w.length - OVERLAP_LINES) 1) ++ r) := by
          have hdrop := numbered_drop hnum2.1 (max (w.length - OVERLAP_LINES) 1)
          have harith : s + max (w.length - OVERLAP_LINES) 1 +
              (w.drop (max (w.length - OVERLAP_LINES) 1)).length = s + w.length := by
            rw [List.length_drop]; omega
          exact numbered_append.mpr ⟨hdrop, harith ▸ hnum2.2⟩
        have hl'len : (w.drop (max (w.length - OVERLAP_LINES) 1) ++ r).length
            = lines.length - max (w.length - OVERLAP_LINES) 1 := by
          rw [List.length_append, List.length_drop]; omega
        have hl'le : (w.drop (max (w.length - OVERLAP_LINES) 1) ++ r).length ≤ N := by
          omega
        have hl'ne : (w.drop (max (w.length - OVERLAP_LINES) 1) ++ r) ≠ [] := by
          intro h0
          rw [List.append_eq_nil] at h0
          exact hr h0.2
        obtain ⟨ihA, ihB, ihC, ihD, ihE, ihF, ihG, ihH⟩ :=
          ih (w.drop (max (w.length - OVERLAP_LINES) 1) ++ r)
            (s + max (w.length - OVERLAP_LINES) 1) hl'le hl'num
        refine ⟨?_, ?_, ?_, ?_, ?_, ?_, ?_, ?_⟩
        · rw [heq]
          simp only [List.length_cons]
          omega
        · rw [heq]
          intro w' hw'
          rcases List.mem_cons.mp hw' with rfl | hw''
          · exact ⟨hwne, s, hnum2.1, le_refl s, by omega⟩
          · obtain ⟨hne', t, ht, ht1, ht2⟩ := ihB w' hw''
            exact ⟨hne', t, ht, by omega, by omega⟩
        · intro x hx
          rw [← happ] at hx
          rcases List.mem_append.mp hx with hxw | hxr
          · exact ⟨w, by rw [heq]; exact List.mem_cons_self _ _, hxw⟩
          · obtain ⟨w', hw', hxw'⟩ := ihC x (List.mem_append.mpr (Or.inr hxr))
            exact ⟨w', by rw [heq]; exact List.mem_cons_of_mem _ hw', hxw'⟩
        · rw [heq]
          intro w' hw' x hx
          rcases List.mem_cons.mp hw' with rfl | hw''
          · rw [← happ]; exact List.mem_append.mpr (Or.inl hx)
          · have hxl' := ihD w' hw'' x hx
            rcases List.mem_append.mp hxl' with hxd | hxr
            · rw [← happ]; exact List.mem_append.mpr (Or.inl (List.drop_subset _ _ hxd))
            · rw [← happ]; exact List.mem_append.mpr (Or.inr hxr)
        · rw [heq]
          obtain ⟨ws', hws'⟩ := ihH hl'ne
          rw [hws'] at ihE ⊢
          refine List.chain'_cons'.mpr ⟨?_, ihE⟩
          intro y hy
          simp only [List.head?_cons, Option.mem_def, Option.some.injEq] at hy
          subst hy
          have hw0ne : (takeChunk 0 (w.drop (max (w.length - OVERLAP_LINES) 1) ++ r)).1 ≠ [] :=
            takeChunk_fst_ne_nil 0 _ hl'ne (by decide)
          have hw0app := takeChunk_append 0 (w.drop (max (w.length - OVERLAP_LINES) 1) ++ r)
          have hfirst0 : firstLineNum (takeChunk 0
              (w.drop (max (w.length - OVERLAP_LINES) 1) ++ r)).1
              = s + max (w.length - OVERLAP_LINES) 1 := by
            have h1 := numbered_first hl'num hl'ne
            rw [← h1]
            conv_rhs => rw [← hw0app]
            exact (firstLineNum_append_left _ _ hw0ne).symm
          constructor
          · rw [numbered_first hnum2.1 hwne, hfirst0]
            omega
          · rw [numbered_last hnum2.1 hwne, hfirst0]
            omega
        · rw [heq]
          refine List.pairwise_cons.mpr ⟨?_, ihF⟩
          intro w' hw'
          obtain ⟨hne', t, ht, ht1, _⟩ := ihB w' hw'
          rw [numbered_first hnum2.1 hwne, numbered_first ht hne']
          omega
        · rw [heq]
          intro w' hw'
          rcases List.mem_cons.mp hw' with rfl | hw''
          · exact hover
          · exact ihG w' hw''
        · intro _
          refine ⟨fixedSizeChunks (w.drop (max (w.length - OVERLAP_LINES) 1) ++ r), ?_⟩
          rw [hwr]
          exact heq

/-! ## The structural scanner's partition invariant -/

theorem flushSt_current (st : SplitState) : (flushSt st).current = [] := by
  unfold flushSt
  split
  · next h => exact List.isEmpty_iff.mp h
  · rfl

theorem flushSt_chunks_flatten (st : SplitState) :
    ((flushSt st).chunks.map RawChunk.lines).flatten
      = (st.chunks.map RawChunk.lines).flatten ++ st.current := by
  unfold flushSt
  split
  · next h => simp [List.isEmpty_iff.mp h]
  · simp

theorem stepLine_inv (st : SplitState) (line : LineInfo) :
    ((stepLine st line).chunks.map RawChunk.lines).flatten ++ (stepLine st line).current
      = (((st.chunks.map RawChunk.lines).flatten ++ st.current)) ++ [line] := by
  unfold stepLine
  split
  · simp [flushSt_chunks_flatten]
  · simp

theorem foldl_stepLine_inv (l : List LineInfo) (st : SplitState) :
    ((List.foldl stepLine st l).chunks.map RawChunk.lines).flatten
        ++ (List.foldl stepLine st l).current
      = (((st.chunks.map RawChunk.lines).flatten ++ st.current)) ++ l := by
  induction l generalizing st with
  | nil => simp
  | cons x xs ih =>
    rw [List.foldl_cons, ih, stepLine_inv]
    simp

/-- Partition: the raw chunks of `splitCobolStructurally` carry exactly the
input lines, in order. -/
theorem splitCobol_flatten (lines : List LineInfo) :
    ((splitCobolStructurally lines).map RawChunk.lines).flatten = lines := by
  have h1 := flushSt_chunks_flatten (lines.foldl stepLine initState)
  have h2 := foldl_stepLine_inv lines initState
  have h0 : ((initState.chunks.map RawChunk.lines).flatten ++ initState.current)
      = ([] : List LineInfo) := rfl
  rw [h0, List.nil_append] at h2
  show ((flushSt (lines.foldl stepLine initState)).chunks.map RawChunk.lines).flatten = lines
  rw [h1, h2]

theorem flushSt_chunks_ne (st : SplitState)
    (h : ∀ c ∈ st.chunks, c.lines ≠ []) :
    ∀ c ∈ (flushSt st).chunks, c.lines ≠ [] := by
  unfold flushSt
  split
  · exact h
  · next hemp =>
    intro c hc
    rcases List.mem_append.mp hc with hold | hnew
    · exact h c hold
    · rw [List.mem_singleton] at hnew
      subst hnew
      simpa [List.isEmpty_iff] using hemp

theorem stepLine_chunks_ne (st : SplitState) (line : LineInfo)
    (h : ∀ c ∈ st.chunks, c.lines ≠ []) :
    ∀ c ∈ (stepLine st line).chunks, c.lines ≠ [] := by
  unfold stepLine
  split
  · exact flushSt_chunks_ne st h
  · exact h

theorem foldl_stepLine_chunks_ne (l : List LineInfo) (st : SplitState)
    (h : ∀ c ∈ st.chunks, c.lines ≠ []) :
    ∀ c ∈ (List.foldl stepLine st l).chunks, c.lines ≠ [] := by
  induction l generalizing st with
  | nil => exact h
  | cons x xs ih => exact ih _ (stepLine_chunks_ne st x h)

/-- Every raw chunk of `splitCobolStructurally` is nonempty. -/
theorem splitCobol_ne_nil (lines : List LineInfo) :
    ∀ c ∈ splitCobolStructurally lines, c.lines ≠ [] := by
  unfold splitCobolStructurally
  exact flushSt_chunks_ne _ (foldl_stepLine_chunks_ne lines initState (by simp [initState]))

/-! ## Numbered partitions -/

theorem numbered_flatten_each (ws : List (List LineInfo)) (s : Nat)
    (h : numbered s ws.flatten) :
    ∀ w ∈ ws, ∃ t, numbered t w ∧ s ≤ t ∧ t + w.length ≤ s + ws.flatten.length := by
  induction ws generalizing s with
  | nil => intro w hw; cases hw
  | cons b ws' ih =>
    rw [List.flatten_cons] at h
    obtain ⟨hb, hrest⟩ := numbered_append.mp h
    intro w hw
    rcases List.mem_cons.mp hw with rfl | hw'
    · refine ⟨s, hb, le_refl s, ?_⟩
      simp only [List.flatten_cons, List.length_append]
      omega
    · obtain ⟨t, ht, ht1, ht2⟩ := ih (s + b.length) hrest w hw'
      refine ⟨t, ht, by omega, ?_⟩
      simp only [List.flatten_cons, List.length_append]
      omega

theorem numbered_flatten_pairwise (ws : List (List LineInfo)) (s : Nat)
    (hne : ∀ w ∈ ws, w ≠ []) (h : numbered s ws.flatten) :
    ws.Pairwise (fun a b => lastLineNum a < firstLineNum b) := by
  induction ws generalizing s with
  | nil => exact List.Pairwise.nil
  | cons b ws' ih =>
    rw [List.flatten_cons] at h
    obtain ⟨hb, hrest⟩ := numbered_append.mp h
    have hbne : b ≠ [] := hne b (List.mem_cons_self _ _)
    refine List.pairwise_cons.mpr ⟨?_, ih (s + b.length)
      (fun w hw => hne w (List.mem_cons_of_mem _ hw)) hrest⟩
    intro w hw
    have hwne : w ≠ [] := hne w (List.mem_cons_of_mem _ hw)
    obtain ⟨t, ht, ht1, _⟩ := numbered_flatten_each ws' (s + b.length) hrest w hw
    rw [numbered_last hb hbne, numbered_first ht hwne]
    have : 0 < b.length := List.length_pos.mpr hbne
    omega

theorem numbered_flatten_chain (ws : List (List LineInfo)) (s : Nat)
    (hne : ∀ w ∈ ws, w ≠ []) (h : numbered s ws.flatten) :
    List.Chain' (fun a b => firstLineNum b = lastLineNum a + 1) ws := by
  induction ws generalizing s with
  | nil => exact List.chain'_nil
  | cons b ws' ih =>
    rw [List.flatten_cons] at h
    obtain ⟨hb, hrest⟩ := numbered_append.mp h
    have hbne : b ≠ [] := hne b (List.mem_cons_self _ _)
    refine List.chain'_cons'.mpr ⟨?_, ih (s + b.length)
      (fun w hw => hne w (List.mem_cons_of_mem _ hw)) hrest⟩
    intro y hy
    cases ws' with
    | nil => cases hy
    | cons c ws'' =>
      simp only [List.head?_cons, Option.mem_def, Option.some.injEq] at hy
      subst hy
      rw [List.flatten_cons] at hrest
      obtain ⟨hc, -⟩ := numbered_append.mp hrest
      have hcne : c ≠ [] := hne c (List.mem_cons_of_mem _ (List.mem_cons_self _ _))
      rw [numbered_first hc hcne, numbered_last hb hbne]
      have : 0 < b.length := List.length_pos.mpr hbne
      omega

/-! ## Emitted chunks of the two windowing emitters -/

theorem emitWindows_map_startLine (file : DiscoveredFile) (i : Nat)
    (ws : List (List LineInfo)) :
    (emitWindows file i ws).map CodeChunk.startLine = ws.map firstLineNum := by
  induction ws generalizing i with
  | nil => rfl
  | cons w ws' ih => simp [emitWindows, ih]

theorem emitWindows_mem (file : DiscoveredFile) (i : Nat)
    (ws : List (List LineInfo)) :
    ∀ c ∈ emitWindows file i ws, ∃ w ∈ ws,
      c.startLine = firstLineNum w ∧ c.endLine = lastLineNum w ∧
      c.content = joinLines w ∧ c.id = makeId file.filePath (firstLineNum w) ∧
      c.filePath = file.filePath := by
  induction ws generalizing i with
  | nil => intro c hc; cases hc
  | cons w ws' ih =>
    intro c hc
    rcases List.mem_cons.mp hc with rfl | hc'
    · exact ⟨w, List.mem_cons_self _ _, rfl, rfl, rfl, rfl, rfl⟩
    · obtain ⟨w', hw', h⟩ := ih (i + 1) c hc'
      exact ⟨w', List.mem_cons_of_mem _ hw', h⟩

theorem emitWindows_covers (file : DiscoveredFile) (i : Nat)
    (ws : List (List LineInfo)) :
    ∀ w ∈ ws, ∃ c ∈ emitWindows file i ws,
      c.startLine = firstLineNum w ∧ c.endLine = lastLineNum w := by
  induction ws generalizing i with
  | nil => intro w hw; cases hw
  | cons w0 ws' ih =>
    intro w hw
    rcases List.mem_cons.mp hw with rfl | hw'
    · exact ⟨_, List.mem_cons_self _ _, rfl, rfl⟩
    · obtain ⟨c, hc, h⟩ := ih (i + 1) w hw'
      exact ⟨c, List.mem_cons_of_mem _ hc, h⟩

theorem emitSub_map_startLine (file : DiscoveredFile) (pid : Option String)
    (raw : RawChunk) (total i : Nat) (ws : List (List LineInfo)) :
    (emitSub file pid raw total i ws).map CodeChunk.startLine = ws.map firstLineNum := by
  induction ws generalizing i with
  | nil => rfl
  | cons w ws' ih => simp [emitSub, ih]

theorem emitSub_mem (file : DiscoveredFile) (pid : Option String)
    (raw : RawChunk) (total i : Nat) (ws : List (List LineInfo)) :
    ∀ c ∈ emitSub file pid raw total i ws, ∃ w ∈ ws,
      c.startLine = firstLineNum w ∧ c.endLine = lastLineNum w ∧
      c.content = joinLines w ∧ c.id = makeId file.filePath (firstLineNum w) ∧
      c.filePath = file.filePath ∧ c.chunkType = raw.chunkType ∧
      c.parentSection = raw.parentSection := by
  induction ws generalizing i with
  | nil => intro c hc; cases hc
  | cons w ws' ih =>
    intro c hc
    rcases List.mem_cons.mp hc with rfl | hc'
    · exact ⟨w, List.mem_cons_self _ _, rfl, rfl, rfl, rfl, rfl, rfl, rfl⟩
    · obtain ⟨w', hw', h⟩ := ih (i + 1) c hc'
      exact ⟨w', List.mem_cons_of_mem _ hw', h⟩

theorem emitSub_covers (file : DiscoveredFile) (pid : Option String)
    (raw : RawChunk) (total i : Nat) (ws : List (List LineInfo)) :
    ∀ w ∈ ws, ∃ c ∈ emitSub file pid raw total i ws,
      c.startLine = firstLineNum w ∧ c.endLine = lastLineNum w := by
  induction ws generalizing i with
  | nil => intro w hw; cases hw
  | cons w0 ws' ih =>
    intro w hw
    rcases List.mem_cons.mp hw with rfl | hw'
    · exact ⟨_, List.mem_cons_self _ _, rfl, rfl⟩
    · obtain ⟨c, hc, h⟩ := ih (i + 1) w hw'
      exact ⟨c, List.mem_cons_of_mem _ hc, h⟩

theorem emitRaw_small (file : DiscoveredFile) (pid : Option String) (raw : RawChunk)
    (h : ¬ MAX_CHUNK_SIZE * 2 < (joinLines raw.lines).length) :
    emitRaw file pid raw =
      [{ id := makeId file.filePath (firstLineNum raw.lines),
         content := joinLines raw.lines,
         filePath := file.filePath,
         startLine := firstLineNum raw.lines,
         endLine := lastLineNum raw.lines,
         chunkType := raw.chunkType,
         name := raw.name,
         parentSection := raw.parentSection,
         programId := pid }] := by
  unfold emitRaw
  rw [if_neg h]

theorem emitRaw_big (file : DiscoveredFile) (pid : Option String) (raw : RawChunk)
    (h : MAX_CHUNK_SIZE * 2 < (joinLines raw.lines).length) :
    emitRaw file pid raw =
      emitSub file pid raw (fixedSizeChunks raw.lines).length 0 (fixedSizeChunks raw.lines) := by
  unfold emitRaw
  rw [if_pos h]

theorem emitRaw_bounds (file : DiscoveredFile) (pid : Option String) (raw : RawChunk)
    (t : Nat) (hne : raw.lines ≠ []) (hnum : numbered t raw.lines) :
    ∀ c ∈ emitRaw file pid raw,
      t ≤ c.startLine ∧ c.startLine + 1 ≤ t + raw.lines.length ∧
      c.id = makeId file.filePath c.startLine ∧ c.filePath = file.filePath := by
  intro c hc
  have hlpos : 0 < raw.lines.length := List.length_pos.mpr hne
  by_cases h : MAX_CHUNK_SIZE * 2 < (joinLines raw.lines).length
  · rw [emitRaw_big file pid raw h] at hc
    obtain ⟨w, hw, hs, he, hcont, hid, hfp, -, -⟩ := emitSub_mem file pid raw _ 0 _ c hc
    obtain ⟨-, hB, -, -, -, -, -, -⟩ :=
      fixedSizeChunks_spec raw.lines.length raw.lines t (le_refl _) hnum
    obtain ⟨hwne, t', ht', ht1, ht2⟩ := hB w hw
    have hwpos : 0 < w.length := List.length_pos.mpr hwne
    have hfirst : firstLineNum w = t' := numbered_first ht' hwne
    refine ⟨?_, ?_, ?_, hfp⟩
    · rw [hs, hfirst]; omega
    · rw [hs, hfirst]; omega
    · rw [hid, hs]
  · rw [emitRaw_small file pid raw h] at hc
    rw [List.mem_singleton] at hc
    subst hc
    have hfirst : firstLineNum raw.lines = t := numbered_first hnum hne
    refine ⟨?_, ?_, ?_, rfl⟩
    · simp [hfirst]
    · simp [hfirst]; omega
    · simp

theorem emitRaw_pairwise (file : DiscoveredFile) (pid : Option String) (raw : RawChunk)
    (t : Nat) (hne : raw.lines ≠ []) (hnum : numbered t raw.lines) :
    (emitRaw file pid raw).Pairwise (fun c1 c2 => c1.startLine < c2.startLine) := by
  by_cases h : MAX_CHUNK_SIZE * 2 < (joinLines raw.lines).length
  · rw [emitRaw_big file pid raw h]
    obtain ⟨-, -, -, -, -, hF, -, -⟩ :=
      fixedSizeChunks_spec raw.lines.length raw.lines t (le_refl _) hnum
    have h1 : ((fixedSizeChunks raw.lines).map firstLineNum).Pairwise (· < ·) :=
      List.pairwise_map.mpr hF
    rw [← emitSub_map_startLine file pid raw (fixedSizeChunks raw.lines).length 0] at h1
    exact List.pairwise_map.mp h1
  · rw [emitRaw_small file pid raw h]
    exact List.pairwise_singleton _ _

theorem emitRaw_cover (file : DiscoveredFile) (pid : Option String) (raw : RawChunk)
    (t : Nat) (hne : raw.lines ≠ []) (hnum : numbered t raw.lines)
    (x : LineInfo) (hx : x ∈ raw.lines) :
    ∃ c ∈ emitRaw file pid raw, c.startLine ≤ x.lineNumber ∧ x.lineNumber ≤ c.endLine := by
  by_cases h : MAX_CHUNK_SIZE * 2 < (joinLines raw.lines).length
  · rw [emitRaw_big file pid raw h]
    obtain ⟨-, hB, hC, -, -, -, -, -⟩ :=
      fixedSizeChunks_spec raw.lines.length raw.lines t (le_refl _) hnum
    obtain ⟨w, hw, hxw⟩ := hC x hx
    obtain ⟨hwne, t', ht', -, -⟩ := hB w hw
    obtain ⟨c, hc, hs, he⟩ := emitSub_covers file pid raw (fixedSizeChunks raw.lines).length 0
      (fixedSizeChunks raw.lines) w hw
    obtain ⟨hm1, hm2⟩ := numbered_mem ht' hxw
    refine ⟨c, hc, ?_, ?_⟩
    · rw [hs, numbered_first ht' hwne]; omega
    · rw [he, numbered_last ht' hwne]; omega
  · rw [emitRaw_small file pid raw h]
    obtain ⟨hm1, hm2⟩ := numbered_mem hnum hx
    refine ⟨_, List.mem_singleton_self _, ?_, ?_⟩
    · simp only [numbered_first hnum hne]; omega
    · simp only [numbered_last hnum hne]
      have : 0 < raw.lines.length := List.length_pos.mpr hne
      omega

theorem emitRaw_oversize (file : DiscoveredFile) (pid : Option String) (raw : RawChunk)
    (t : Nat) (hne : raw.lines ≠ []) (hnum : numbered t raw.lines) :
    ∀ c ∈ emitRaw file pid raw, c.content.length ≤ 2 * MAX_CHUNK_SIZE ∨
      ∃ x ∈ raw.lines, c.startLine ≤ x.lineNumber ∧ x.lineNumber ≤ c.endLine ∧
        MAX_CHUNK_SIZE < x.text.length := by
  intro c hc
  by_cases h : MAX_CHUNK_SIZE * 2 < (joinLines raw.lines).length
  · rw [emitRaw_big file pid raw h] at hc
    obtain ⟨w, hw, hs, he, hcont, -, -, -, -⟩ := emitSub_mem file pid raw _ 0 _ c hc
    obtain ⟨-, hB, -, hD, -, -, hG, -⟩ :=
      fixedSizeChunks_spec raw.lines.length raw.lines t (le_refl _) hnum
    obtain ⟨hwne, t', ht', -, -⟩ := hB w hw
    rcases hG w hw with hsmall | ⟨x, hxw, hxbig⟩
    · left; rw [hcont]; exact hsmall
    · right
      obtain ⟨hm1, hm2⟩ := numbered_mem ht' hxw
      refine ⟨x, hD w hw x hxw, ?_, ?_, hxbig⟩
      · rw [hs, numbered_first ht' hwne]; omega
      · rw [he, numbered_last ht' hwne]; omega
  · rw [emitRaw_small file pid raw h] at hc
    rw [List.mem_singleton] at hc
    subst hc
    left
    simp only []
    omega

/-! ## Aggregate properties of `chunkCobol` and `chunkFixedSize` -/

theorem splitCobol_raw_numbered (lines : List LineInfo) (hnum : numbered 1 lines) :
    ∀ raw ∈ splitCobolStructurally lines,
      ∃ t, numbered t raw.lines ∧ 1 ≤ t ∧ t + raw.lines.length ≤ 1 + lines.length := by
  intro raw hraw
  have h := numbered_flatten_each ((splitCobolStructurally lines).map RawChunk.lines) 1
    (by rw [splitCobol_flatten]; exact hnum) raw.lines
    (List.mem_map_of_mem RawChunk.lines hraw)
  rw [splitCobol_flatten] at h
  exact h

theorem chunkCobol_cover (lines : List LineInfo) (file : DiscoveredFile)
    (pid : Option String) (hnum : numbered 1 lines) :
    ∀ x ∈ lines, ∃ c ∈ chunkCobol lines file pid,
      c.startLine ≤ x.lineNumber ∧ x.lineNumber ≤ c.endLine := by
  intro x hx
  rw [← splitCobol_flatten lines] at hx
  obtain ⟨l, hl, hxl⟩ := List.mem_flatten.mp hx
  obtain ⟨raw, hraw, rfl⟩ := List.mem_map.mp hl
  obtain ⟨t, ht, -, -⟩ := splitCobol_raw_numbered lines hnum raw hraw
  obtain ⟨c, hc, h1, h2⟩ := emitRaw_cover file pid raw t
    (splitCobol_ne_nil lines raw hraw) ht x hxl
  refine ⟨c, ?_, h1, h2⟩
  unfold chunkCobol
  exact List.mem_flatten.mpr ⟨emitRaw file pid raw,
    List.mem_map_of_mem (emitRaw file pid) hraw, hc⟩

theorem chunkCobol_oversize (lines : List LineInfo) (file : DiscoveredFile)
    (pid : Option String) (hnum : numbered 1 lines) :
    ∀ c ∈ chunkCobol lines file pid, c.content.length ≤ 2 * MAX_CHUNK_SIZE ∨
      ∃ x ∈ lines, c.startLine ≤ x.lineNumber ∧ x.lineNumber ≤ c.endLine ∧
        MAX_CHUNK_SIZE < x.text.length := by
  intro c hc
  unfold chunkCobol at hc
  obtain ⟨l, hl, hcl⟩ := List.mem_flatten.mp hc
  obtain ⟨raw, hraw, rfl⟩ := List.mem_map.mp hl
  obtain ⟨t, ht, -, -⟩ := splitCobol_raw_numbered lines hnum raw hraw
  rcases emitRaw_oversize file pid raw t (splitCobol_ne_nil lines raw hraw) ht c hcl
    with hsmall | ⟨x, hxr, h1, h2, h3⟩
  · exact Or.inl hsmall
  · refine Or.inr ⟨x, ?_, h1, h2, h3⟩
    rw [← splitCobol_flatten lines]
    exact List.mem_flatten.mpr ⟨raw.lines, List.mem_map_of_mem RawChunk.lines hraw, hxr⟩

theorem chunkCobol_pairwise (lines : List LineInfo) (file : DiscoveredFile)
    (pid : Option String) (hnum : numbered 1 lines) :
    (chunkCobol lines file pid).Pairwise (fun c1 c2 => c1.startLine < c2.startLine) := by
  unfold chunkCobol
  refine List.pairwise_flatten.mpr ⟨?_, ?_⟩
  · intro l hl
    obtain ⟨raw, hraw, rfl⟩ := List.mem_map.mp hl
    obtain ⟨t, ht, -, -⟩ := splitCobol_raw_numbered lines hnum raw hraw
    exact emitRaw_pairwise file pid raw t (splitCobol_ne_nil lines raw hraw) ht
  · have hpw : ((splitCobolStructurally lines).map RawChunk.lines).Pairwise
        (fun a b => lastLineNum a < firstLineNum b) := by
      refine numbered_flatten_pairwise _ 1 ?_ (by rw [splitCobol_flatten]; exact hnum)
      intro w hw
      obtain ⟨raw, hraw, rfl⟩ := List.mem_map.mp hw
      exact splitCobol_ne_nil lines raw hraw
    have hpw2 : (splitCobolStructurally lines).Pairwise
        (fun r1 r2 => lastLineNum r1.lines < firstLineNum r2.lines) :=
      List.pairwise_map.mp hpw
    refine List.pairwise_map.mpr ?_
    refine List.Pairwise.imp_of_mem ?_ hpw2
    intro r1 r2 h1 h2 hlt c1 hc1 c2 hc2
    obtain ⟨t1, ht1, -, -⟩ := splitCobol_raw_numbered lines hnum r1 h1
    obtain ⟨t2, ht2, -, -⟩ := splitCobol_raw_numbered lines hnum r2 h2
    have hne1 := splitCobol_ne_nil lines r1 h1
    have hne2 := splitCobol_ne_nil lines r2 h2
    obtain ⟨hb1, hb2, -, -⟩ := emitRaw_bounds file pid r1 t1 hne1 ht1 c1 hc1
    obtain ⟨hb3, -, -, -⟩ := emitRaw_bounds file pid r2 t2 hne2 ht2 c2 hc2
    rw [numbered_last ht1 hne1, numbered_first ht2 hne2] at hlt
    omega

theorem chunkCobol_ids (lines : List LineInfo) (file : DiscoveredFile)
    (pid : Option String) (hnum : numbered 1 lines) :
    ∀ c ∈ chunkCobol lines file pid, c.id = makeId file.filePath c.startLine := by
  intro c hc
  unfold chunkCobol at hc
  obtain ⟨l, hl, hcl⟩ := List.mem_flatten.mp hc
  obtain ⟨raw, hraw, rfl⟩ := List.mem_map.mp hl
  obtain ⟨t, ht, -, -⟩ := splitCobol_raw_numbered lines hnum raw hraw
  obtain ⟨-, -, hid, -⟩ := emitRaw_bounds file pid raw t
    (splitCobol_ne_nil lines raw hraw) ht c hcl
  exact hid

theorem chunkFixedSize_cover (lines : List LineInfo) (file : DiscoveredFile)
    (hnum : numbered 1 lines) :
    ∀ x ∈ lines, ∃ c ∈ chunkFixedSize lines file,
      c.startLine ≤ x.lineNumber ∧ x.lineNumber ≤ c.endLine := by
  intro x hx
  obtain ⟨-, hB, hC, -, -, -, -, -⟩ :=
    fixedSizeChunks_spec lines.length lines 1 (le_refl _) hnum
  obtain ⟨w, hw, hxw⟩ := hC x hx
  obtain ⟨hwne, t', ht', -, -⟩ := hB w hw
  obtain ⟨c, hc, hs, he⟩ := emitWindows_covers file 0 (fixedSizeChunks lines) w hw
  obtain ⟨hm1, hm2⟩ := numbered_mem ht' hxw
  refine ⟨c, hc, ?_, ?_⟩
  · rw [hs, numbered_first ht' hwne]; omega
  · rw [he, numbered_last ht' hwne]; omega

theorem chunkFixedSize_oversize (lines : List LineInfo) (file : DiscoveredFile)
    (hnum : numbered 1 lines) :
    ∀ c ∈ chunkFixedSize lines file, c.content.length ≤ 2 * MAX_CHUNK_SIZE ∨
      ∃ x ∈ lines, c.startLine ≤ x.lineNumber ∧ x.lineNumber ≤ c.endLine ∧
        MAX_CHUNK_SIZE < x.text.length := by
  intro c hc
  obtain ⟨w, hw, hs, he, hcont, -, -⟩ := emitWindows_mem file 0 (fixedSizeChunks lines) c hc
  obtain ⟨-, hB, -, hD, -, -, hG, -⟩ :=
    fixedSizeChunks_spec lines.length lines 1 (le_refl _) hnum
  obtain ⟨hwne, t', ht', -, -⟩ := hB w hw
  rcases hG w hw with hsmall | ⟨x, hxw, hxbig⟩
  · left; rw [hcont]; exact hsmall
  · right
    obtain ⟨hm1, hm2⟩ := numbered_mem ht' hxw
    refine ⟨x, hD w hw x hxw, ?_, ?_, hxbig⟩
    · rw [hs, numbered_first ht' hwne]; omega
    · rw [he, numbered_last ht' hwne]; omega

theorem chunkFixedSize_pairwise (lines : List LineInfo) (file : DiscoveredFile)
    (hnum : numbered 1 lines) :
    (chunkFixedSize lines file).Pairwise (fun c1 c2 => c1.startLine < c2.startLine) := by
  obtain ⟨-, -, -, -, -, hF, -, -⟩ :=
    fixedSizeChunks_spec lines.length lines 1 (le_refl _) hnum
  have h1 : ((fixedSizeChunks lines).map firstLineNum).Pairwise (· < ·) :=
    List.pairwise_map.mpr hF
  rw [← emitWindows_map_startLine file 0] at h1
  exact List.pairwise_map.mp h1

theorem chunkFixedSize_ids (lines : List LineInfo) (file : DiscoveredFile) :
    ∀ c ∈ chunkFixedSize lines file, c.id = makeId file.filePath c.startLine := by
  intro c hc
  obtain ⟨w, hw, hs, -, -, hid, -⟩ := emitWindows_mem file 0 (fixedSizeChunks lines) c hc
  rw [hid, hs]

/-- `chunkFile` unfolded. -/
theorem chunkFile_eq (file : DiscoveredFile) :
    chunkFile file =
      if [".cob", ".cbl", ".cpy"].contains (strLower file.extension) then
        chunkCobol (mkLines file.content) file (extractProgramId (mkLines file.content))
      else chunkFixedSize (mkLines file.content) file := rfl

/-! ## Injectivity of decimal ids -/

theorem digitsVal_append (l : List Char) (c : Char) :
    digitsVal (l ++ [c]) = 10 * digitsVal l + (c.toNat - 48) := by
  unfold digitsVal
  rw [List.foldl_append]
  rfl

theorem digitChar_toNat (m : Nat) (h : m < 10) : (Nat.digitChar m).toNat - 48 = m := by
  interval_cases m <;> rfl

theorem toDigitsCore_eq (n : Nat) : ∀ (f : Nat) (l : List Char), n < f →
    Nat.toDigitsCore 10 f n l = Nat.toDigits 10 n ++ l := by
  induction n using Nat.strong_induction_on with
  | _ n ih =>
    intro f l hf
    cases f with
    | zero => omega
    | succ f' =>
      by_cases h0 : n / 10 = 0
      · simp [Nat.toDigitsCore, Nat.toDigits, h0]
      · have hn10 : n / 10 < n := by omega
        simp only [Nat.toDigitsCore, Nat.toDigits]
        rw [if_neg h0, if_neg h0]
        rw [ih (n / 10) hn10 f' _ (by omega), ih (n / 10) hn10 n _ (by omega)]
        simp

theorem digitsVal_toDigits (n : Nat) : digitsVal (Nat.toDigits 10 n) = n := by
  induction n using Nat.strong_induction_on with
  | _ n ih =>
    by_cases h0 : n / 10 = 0
    · have h1 : Nat.toDigits 10 n = [Nat.digitChar (n % 10)] := by
        simp [Nat.toDigits, Nat.toDigitsCore, h0]
      rw [h1]
      have h2 : digitsVal [Nat.digitChar (n % 10)] = (Nat.digitChar (n % 10)).toNat - 48 := by
        simp [digitsVal]
      rw [h2, digitChar_toNat _ (by omega)]
      omega
    · have hn10 : n / 10 < n := by omega
      have hstep : Nat.toDigits 10 n = Nat.toDigits 10 (n / 10) ++ [Nat.digitChar (n % 10)] := by
        simp only [Nat.toDigits, Nat.toDigitsCore]
        rw [if_neg h0]
        exact toDigitsCore_eq (n / 10) n _ (by omega)
      rw [hstep, digitsVal_append, ih (n / 10) hn10, digitChar_toNat _ (by omega)]
      omega

theorem natRepr_inj {m n : Nat} (h : Nat.repr m = Nat.repr n) : m = n := by
  have hm : Nat.toDigits 10 m = Nat.toDigits 10 n := by
    have hd := congrArg String.data h
    simpa [Nat.repr, List.asString] using hd
  have hv := congrArg digitsVal hm
  rwa [digitsVal_toDigits, digitsVal_toDigits] at hv

theorem string_data_inj {s t : String} (h : s.data = t.data) : s = t := by
  cases s
  cases t
  exact congrArg String.mk h

theorem makeId_inj (fp : String) {m n : Nat} (h : makeId fp m = makeId fp n) : m = n := by
  unfold makeId at h
  have hd := congrArg String.data h
  simp only [String.data_append] at hd
  have h3 : (toString m).data = (toString n).data := List.append_cancel_left hd
  have h4 : Nat.repr m = Nat.repr n := string_data_inj h3
  exact natRepr_inj h4

/-! ## Remaining support lemmas -/

theorem splitOnNl_ne_nil (cs : List Char) : splitOnNl cs ≠ [] := by
  cases cs with
  | nil => simp [splitOnNl]
  | cons c cs' =>
    simp only [splitOnNl]
    split
    · simp
    · split <;> simp

theorem docLineCount_pos (file : DiscoveredFile) : 0 < docLineCount file :=
  List.length_pos.mpr (splitOnNl_ne_nil _)

theorem insertAsc_perm (x : CodeChunk) (l : List CodeChunk) :
    (insertAsc x l).Perm (x :: l) := by
  induction l with
  | nil => exact List.Perm.refl _
  | cons y ys ih =>
    simp only [insertAsc]
    split
    · exact (List.Perm.cons y ih).trans (List.Perm.swap x y ys)
    · exact List.Perm.refl _

theorem foldl_insertAsc_perm (l acc : List CodeChunk) :
    (l.foldl (fun a x => insertAsc x a) acc).Perm (acc ++ l) := by
  induction l generalizing acc with
  | nil => simp
  | cons x xs ih =>
    rw [List.foldl_cons]
    refine (ih (insertAsc x acc)).trans ?_
    refine (List.Perm.append_right xs (insertAsc_perm x acc)).trans ?_
    have h : x :: acc ++ xs = x :: (acc ++ xs) := rfl
    rw [h]
    exact List.perm_middle.symm

theorem sortByStartLine_perm (l : List CodeChunk) : (sortByStartLine l).Perm l := by
  have h := foldl_insertAsc_perm l []
  simpa [sortByStartLine] using h

theorem insertAsc_sorted (x : CodeChunk) (l : List CodeChunk)
    (h : l.Pairwise (fun a b => a.startLine ≤ b.startLine)) :
    (insertAsc x l).Pairwise (fun a b => a.startLine ≤ b.startLine) := by
  induction l with
  | nil => exact List.pairwise_singleton _ x
  | cons y ys ih =>
    obtain ⟨hy, hys⟩ := List.pairwise_cons.mp h
    simp only [insertAsc]
    split
    · next hle =>
      refine List.pairwise_cons.mpr ⟨?_, ih hys⟩
      intro z hz
      rcases List.mem_cons.mp ((insertAsc_perm x ys).mem_iff.mp hz) with rfl | hz'
      · exact hle
      · exact hy z hz'
    · next hgt =>
      refine List.pairwise_cons.mpr ⟨?_, h⟩
      intro z hz
      rcases List.mem_cons.mp hz with rfl | hz'
      · omega
      · have := hy z hz'
        omega

theorem sortByStartLine_sorted (l : List CodeChunk) :
    (sortByStartLine l).Pairwise (fun a b => a.startLine ≤ b.startLine) := by
  have hgen : ∀ (m acc : List CodeChunk),
      acc.Pairwise (fun a b => a.startLine ≤ b.startLine) →
      (m.foldl (fun a x => insertAsc x a) acc).Pairwise
        (fun a b => a.startLine ≤ b.startLine) := by
    intro m
    induction m with
    | nil => intro acc hacc; exact hacc
    | cons x xs ih =>
      intro acc hacc
      rw [List.foldl_cons]
      exact ih _ (insertAsc_sorted x acc hacc)
  exact hgen l [] List.Pairwise.nil

/-! ## Shared route-level helper lemmas -/

theorem chunkFile_covers_aux (file : DiscoveredFile) (n : Nat)
    (h1 : 1 ≤ n) (h2 : n ≤ docLineCount file) :
    ∃ c ∈ chunkFile file, c.startLine ≤ n ∧ n ≤ c.endLine := by
  have hnum := numbered_mkLines file.content
  have hlen : (mkLines file.content).length = docLineCount file :=
    length_mkLines file.content
  obtain ⟨x, hx, hxn⟩ := numbered_exists hnum h1 (by omega)
  rw [chunkFile_eq]
  split
  · obtain ⟨c, hc, ha, hb⟩ := chunkCobol_cover _ file _ hnum x hx
    rw [hxn] at ha hb
    exact ⟨c, hc, ha, hb⟩
  · obtain ⟨c, hc, ha, hb⟩ := chunkFixedSize_cover _ file hnum x hx
    rw [hxn] at ha hb
    exact ⟨c, hc, ha, hb⟩

theorem chunkFile_ids_aux (file : DiscoveredFile) :
    ∀ c ∈ chunkFile file, c.id = makeId file.filePath c.startLine := by
  intro c hc
  rw [chunkFile_eq] at hc
  split at hc
  · exact chunkCobol_ids _ file _ (numbered_mkLines _) c hc
  · exact chunkFixedSize_ids _ file c hc

theorem runAnalysis_embedInput (config : ModeConfig) (query : String)
    (candidates : List SearchResult) (outcome : GradeOutcome)
    (deltas : List (Option String)) (topKBody : Option Nat) :
    (runAnalysis config query candidates outcome deltas topKBody).embedInput
      = searchQueryOf config query := by
  cases hq : qualityGate (rerankResults candidates (topKBody.getD config.defaultTopK) outcome) <;>
    simp [runAnalysis, hq]

theorem runAnalysis_rerankQuery (config : ModeConfig) (query : String)
    (candidates : List SearchResult) (outcome : GradeOutcome)
    (deltas : List (Option String)) (topKBody : Option Nat) :
    (runAnalysis config query candidates outcome deltas topKBody).rerankQuery = query := by
  cases hq : qualityGate (rerankResults candidates (topKBody.getD config.defaultTopK) outcome) <;>
    simp [runAnalysis, hq]

theorem runAnalysis_generation (config : ModeConfig) (query : String)
    (candidates : List SearchResult) (outcome : GradeOutcome)
    (deltas : List (Option String)) (topKBody : Option Nat) :
    (runAnalysis config query candidates outcome deltas topKBody).generation =
      if qualityGate (rerankResults candidates (topKBody.getD config.defaultTopK) outcome) then
        some (config.systemPrompt,
          userMessage
            (contextOf (rerankResults candidates (topKBody.getD config.defaultTopK) outcome))
            query)
      else none := by
  cases hq : qualityGate (rerankResults candidates (topKBody.getD config.defaultTopK) outcome) <;>
    simp [runAnalysis, hq]

/-! ## The claims -/

/-- C1: for every input document of `N` lines, the chunker (`chunkFile`, on
both the structural COBOL path and the fixed-size fallback path) emits
chunks whose inclusive `[startLine, endLine]` ranges together cover every
line number `1..N` at least once — no line of the document is dropped. -/
theorem claim_c1_chunkFile_coverage (file : DiscoveredFile) (n : Nat)
    (h1 : 1 ≤ n) (h2 : n ≤ docLineCount file) :
    ∃ c ∈ chunkFile file, c.startLine ≤ n ∧ n ≤ c.endLine :=
  chunkFile_covers_aux file n h1 h2

theorem claim_c1_witness :
    1 ≤ 1 ∧ 1 ≤ docLineCount ⟨"a.cob", ".cob", "X"⟩ ∧
    ∃ c ∈ chunkFile ⟨"a.cob", ".cob", "X"⟩, c.startLine ≤ 1 ∧ 1 ≤ c.endLine :=
  ⟨le_refl 1, by decide,
    claim_c1_chunkFile_coverage ⟨"a.cob", ".cob", "X"⟩ 1 (le_refl 1) (by decide)⟩

/-- C5: no chunk emitted by the chunker has content length exceeding twice
the nominal size bound (`2 * MAX_CHUNK_SIZE = 3000` characters), except
when the chunk contains an irreducible single line of the document that
alone exceeds the nominal bound (`MAX_CHUNK_SIZE = 1500`). -/
theorem claim_c5_oversize_bound (file : DiscoveredFile) :
    ∀ c ∈ chunkFile file,
      c.content.length ≤ 2 * MAX_CHUNK_SIZE ∨
      ∃ x ∈ mkLines file.content, c.startLine ≤ x.lineNumber ∧
        x.lineNumber ≤ c.endLine ∧ MAX_CHUNK_SIZE < x.text.length := by
  intro c hc
  rw [chunkFile_eq] at hc
  split at hc
  · exact chunkCobol_oversize _ file _ (numbered_mkLines _) c hc
  · exact chunkFixedSize_oversize _ file (numbered_mkLines _) c hc

theorem claim_c5_witness :
    (⟨"a_cob_L1", "X", "a.cob", 1, 1, ChunkType.division, "PREAMBLE", none, none⟩ : CodeChunk)
        ∈ chunkFile ⟨"a.cob", ".cob", "X"⟩ ∧
    ((⟨"a_cob_L1", "X", "a.cob", 1, 1, ChunkType.division, "PREAMBLE", none, none⟩ :
        CodeChunk).content.length ≤ 2 * MAX_CHUNK_SIZE ∨
      ∃ x ∈ mkLines (DiscoveredFile.content ⟨"a.cob", ".cob", "X"⟩),
        (1 : Nat) ≤ x.lineNumber ∧ x.lineNumber ≤ 1 ∧ MAX_CHUNK_SIZE < x.text.length) :=
  ⟨by decide, claim_c5_oversize_bound ⟨"a.cob", ".cob", "X"⟩ _ (by decide)⟩

/-- C6: for a consecutively numbered list of `N` lines, the fixed-size
windowing loop (`fixedSizeChunks`) emits at most `N` windows (one per
iteration, so it terminates in at most `N` iterations); every window's
start is strictly greater than its predecessor's start (forward progress by
at least one line), and every window begins at most `OVERLAP_LINES = 3`
lines before the end of its predecessor (the predecessor's last line number
is at most the successor's first line number plus `OVERLAP_LINES`). -/
theorem claim_c6_windowing_termination (lines : List LineInfo) (s : Nat)
    (hnum : numbered s lines) :
    (fixedSizeChunks lines).length ≤ lines.length ∧
    List.Chain' (fun w1 w2 => firstLineNum w1 < firstLineNum w2 ∧
      lastLineNum w1 ≤ firstLineNum w2 + OVERLAP_LINES) (fixedSizeChunks lines) := by
  obtain ⟨hA, -, -, -, hE, -, -, -⟩ :=
    fixedSizeChunks_spec lines.length lines s (le_refl _) hnum
  exact ⟨hA, hE⟩

theorem claim_c6_witness :
    numbered 1 [(⟨"A", 1⟩ : LineInfo), ⟨"B", 2⟩] ∧
    ((fixedSizeChunks [(⟨"A", 1⟩ : LineInfo), ⟨"B", 2⟩]).length
        ≤ ([(⟨"A", 1⟩ : LineInfo), ⟨"B", 2⟩]).length ∧
      List.Chain' (fun w1 w2 => firstLineNum w1 < firstLineNum w2 ∧
        lastLineNum w1 ≤ firstLineNum w2 + OVERLAP_LINES)
        (fixedSizeChunks [(⟨"A", 1⟩ : LineInfo), ⟨"B", 2⟩])) :=
  ⟨by simp [numbered], claim_c6_windowing_termination _ 1 (by simp [numbered])⟩

/-- C7: on the structural path, the raw chunks produced by
`splitCobolStructurally` have contiguous, non-overlapping line ranges in
strictly increasing order (each raw chunk starts exactly one line after its
predecessor ends), and every raw chunk that is not further split for
oversize is emitted by `chunkCobol` as one chunk occupying exactly that
range, keeping the raw chunk's `chunkType` and `parentSection`. -/
theorem claim_c7_structural_contiguity (lines : List LineInfo)
    (file : DiscoveredFile) (pid : Option String) (hnum : numbered 1 lines) :
    List.Chain' (fun r1 r2 => firstLineNum r2.lines = lastLineNum r1.lines + 1)
      (splitCobolStructurally lines) ∧
    (splitCobolStructurally lines).Pairwise
      (fun r1 r2 => lastLineNum r1.lines < firstLineNum r2.lines) ∧
    ∀ raw ∈ splitCobolStructurally lines,
      ¬ MAX_CHUNK_SIZE * 2 < (joinLines raw.lines).length →
      ∃ c ∈ chunkCobol lines file pid,
        c.startLine = firstLineNum raw.lines ∧ c.endLine = lastLineNum raw.lines ∧
        c.chunkType = raw.chunkType ∧ c.parentSection = raw.parentSection := by
  have hne : ∀ w ∈ (splitCobolStructurally lines).map RawChunk.lines, w ≠ [] := by
    intro w hw
    obtain ⟨raw, hraw, rfl⟩ := List.mem_map.mp hw
    exact splitCobol_ne_nil lines raw hraw
  have hnumf : numbered 1 ((splitCobolStructurally lines).map RawChunk.lines).flatten := by
    rw [splitCobol_flatten]; exact hnum
  refine ⟨?_, ?_, ?_⟩
  · exact (List.chain'_map RawChunk.lines).mp (numbered_flatten_chain _ 1 hne hnumf)
  · exact List.pairwise_map.mp (numbered_flatten_pairwise _ 1 hne hnumf)
  · intro raw hraw hsmall
    refine ⟨{ id := makeId file.filePath (firstLineNum raw.lines),
              content := joinLines raw.lines, filePath := file.filePath,
              startLine := firstLineNum raw.lines, endLine := lastLineNum raw.lines,
              chunkType := raw.chunkType, name := raw.name,
              parentSection := raw.parentSection, programId := pid }, ?_, rfl, rfl, rfl, rfl⟩
    unfold chunkCobol
    refine List.mem_flatten.mpr ⟨emitRaw file pid raw,
      List.mem_map_of_mem (emitRaw file pid) hraw, ?_⟩
    rw [emitRaw_small file pid raw hsmall]
    exact List.mem_singleton_self _

theorem claim_c7_witness :
    numbered 1 [(⟨"A", 1⟩ : LineInfo)] ∧
    (List.Chain' (fun r1 r2 => firstLineNum r2.lines = lastLineNum r1.lines + 1)
      (splitCobolStructurally [(⟨"A", 1⟩ : LineInfo)]) ∧
    (splitCobolStructurally [(⟨"A", 1⟩ : LineInfo)]).Pairwise
      (fun r1 r2 => lastLineNum r1.lines < firstLineNum r2.lines) ∧
    ∀ raw ∈ splitCobolStructurally [(⟨"A", 1⟩ : LineInfo)],
      ¬ MAX_CHUNK_SIZE * 2 < (joinLines raw.lines).length →
      ∃ c ∈ chunkCobol [(⟨"A", 1⟩ : LineInfo)] ⟨"a.cob", ".cob", "A"⟩ none,
        c.startLine = firstLineNum raw.lines ∧ c.endLine = lastLineNum raw.lines ∧
        c.chunkType = raw.chunkType ∧ c.parentSection = raw.parentSection) :=
  ⟨by simp [numbered],
    claim_c7_structural_contiguity [⟨"A", 1⟩] ⟨"a.cob", ".cob", "A"⟩ none (by simp [numbered])⟩

/-- C10: for every input document (including one with empty content, whose
single line 1 is still covered by a chunk), the `startLine` values of the
chunks emitted by `chunkFile` are strictly increasing across the emitted
sequence; consequently the chunk ids computed by `makeId` from the
sanitized file path and `startLine` are pairwise distinct within one
document, so upserting a document's chunks never overwrites one of its own
chunks. -/
theorem claim_c10_distinct_ids (file : DiscoveredFile) :
    List.Pairwise (fun c1 c2 => c1.startLine < c2.startLine) (chunkFile file) ∧
    ((chunkFile file).map CodeChunk.id).Nodup ∧
    ∃ c ∈ chunkFile file, c.startLine ≤ 1 ∧ 1 ≤ c.endLine := by
  have hnum := numbered_mkLines file.content
  have hpw : List.Pairwise (fun c1 c2 => c1.startLine < c2.startLine) (chunkFile file) := by
    rw [chunkFile_eq]
    split
    · exact chunkCobol_pairwise _ file _ hnum
    · exact chunkFixedSize_pairwise _ file hnum
  refine ⟨hpw, ?_, ?_⟩
  · show ((chunkFile file).map CodeChunk.id).Pairwise (· ≠ ·)
    rw [List.pairwise_map]
    refine List.Pairwise.imp_of_mem ?_ hpw
    intro c1 c2 h1 h2 hlt heq
    rw [chunkFile_ids_aux file c1 h1, chunkFile_ids_aux file c2 h2] at heq
    have := makeId_inj file.filePath heq
    omega
  · exact chunkFile_covers_aux file 1 (le_refl 1) (docLineCount_pos file)

/-- C2: for every query and candidate list with more candidates than
`topK`, if the reranker's grading call throws (network error, timeout, or a
JSON parse failure), returns no message content, or returns a reply whose
`scores` field is not an array, then `rerankResults` returns exactly the
first `topK` candidates of its input in their original order, and none of
the returned results carries a `rerankScore`; the failure is absorbed
inside the function (the model is total) and never propagated to the
caller. -/
theorem claim_c2_rerank_fallback (results : List SearchResult) (topK : Nat)
    (outcome : GradeOutcome) (hk : topK < results.length)
    (hfail : isGradeFailure outcome)
    (hclean : ∀ r ∈ results, r.rerankScore = none) :
    rerankResults results topK outcome = results.take topK ∧
    ∀ r ∈ rerankResults results topK outcome, r.rerankScore = none := by
  have hnle : ¬ results.length ≤ topK := by omega
  have heq : rerankResults results topK outcome = results.take topK := by
    unfold rerankResults
    rw [if_neg hnle]
    cases outcome with
    | threw => rfl
    | noContent => rfl
    | notArray => rfl
    | scores entries => exact hfail.elim
  refine ⟨heq, ?_⟩
  intro r hr
  rw [heq] at hr
  exact hclean r (List.take_subset topK results hr)

theorem claim_c2_witness :
    (1 : Nat) <
      ([⟨⟨"i1", "c1", "f", 1, 1, ChunkType.fixed, "n1", none, none⟩, 1, none⟩,
        ⟨⟨"i2", "c2", "f", 2, 2, ChunkType.fixed, "n2", none, none⟩, 0, none⟩] :
        List SearchResult).length ∧
    isGradeFailure GradeOutcome.threw ∧
    (∀ r ∈ ([⟨⟨"i1", "c1", "f", 1, 1, ChunkType.fixed, "n1", none, none⟩, 1, none⟩,
        ⟨⟨"i2", "c2", "f", 2, 2, ChunkType.fixed, "n2", none, none⟩, 0, none⟩] :
        List SearchResult), r.rerankScore = none) ∧
    (rerankResults
        [⟨⟨"i1", "c1", "f", 1, 1, ChunkType.fixed, "n1", none, none⟩, 1, none⟩,
         ⟨⟨"i2", "c2", "f", 2, 2, ChunkType.fixed, "n2", none, none⟩, 0, none⟩]
        1 GradeOutcome.threw =
      ([⟨⟨"i1", "c1", "f", 1, 1, ChunkType.fixed, "n1", none, none⟩, 1, none⟩,
        ⟨⟨"i2", "c2", "f", 2, 2, ChunkType.fixed, "n2", none, none⟩, 0, none⟩] :
        List SearchResult).take 1 ∧
      ∀ r ∈ rerankResults
        [⟨⟨"i1", "c1", "f", 1, 1, ChunkType.fixed, "n1", none, none⟩, 1, none⟩,
         ⟨⟨"i2", "c2", "f", 2, 2, ChunkType.fixed, "n2", none, none⟩, 0, none⟩]
        1 GradeOutcome.threw, r.rerankScore = none) :=
  ⟨by decide, trivial, by decide,
    claim_c2_rerank_fallback _ 1 GradeOutcome.threw (by decide) trivial (by decide)⟩

/-- C3: the quality gate decides by inspecting only the top-ranked result:
with no results it fails; if the top result carries a `rerankScore` the
gate passes exactly when that score is at least 3 (so 3 passes, 2 fails);
if it carries none the gate passes exactly when the similarity score is at
least 0.3 (so 0.30 passes, 0.29 fails); and the decision never depends on
the rest of the list. -/
theorem claim_c3_quality_gate :
    qualityGate [] = false ∧
    (∀ (r : SearchResult) (rest : List SearchResult) (q : ℚ),
      r.rerankScore = some q → (qualityGate (r :: rest) = true ↔ (3 : ℚ) ≤ q)) ∧
    (∀ (r : SearchResult) (rest : List SearchResult),
      r.rerankScore = none →
        (qualityGate (r :: rest) = true ↔ (0.3 : ℚ) ≤ r.score)) ∧
    (∀ (r : SearchResult) (rest1 rest2 : List SearchResult),
      qualityGate (r :: rest1) = qualityGate (r :: rest2)) := by
  refine ⟨rfl, ?_, ?_, ?_⟩
  · intro r rest q hq
    simp [qualityGate, hq, RERANK_THRESHOLD]
  · intro r rest hq
    simp [qualityGate, hq, PINECONE_THRESHOLD]
  · intro r rest1 rest2
    rfl

theorem claim_c3_witness :
    qualityGate [⟨⟨"i", "c", "f", 1, 1, ChunkType.fixed, "n", none, none⟩, 0, some 3⟩] = true ∧
    qualityGate [⟨⟨"i", "c", "f", 1, 1, ChunkType.fixed, "n", none, none⟩, 0, some 2⟩] = false ∧
    qualityGate [⟨⟨"i", "c", "f", 1, 1, ChunkType.fixed, "n", none, none⟩, 0.3, none⟩] = true ∧
    qualityGate [⟨⟨"i", "c", "f", 1, 1, ChunkType.fixed, "n", none, none⟩, 0.29, none⟩] = false ∧
    qualityGate [] = false := by
  obtain ⟨h0, h1, h2, -⟩ := claim_c3_quality_gate
  refine ⟨?_, ?_, ?_, ?_, h0⟩
  · exact (h1 _ [] 3 rfl).mpr (by norm_num)
  · have h := h1 (⟨⟨"i", "c", "f", 1, 1, ChunkType.fixed, "n", none, none⟩, 0, some 2⟩ :
      SearchResult) [] 2 rfl
    cases hb : qualityGate
        [⟨⟨"i", "c", "f", 1, 1, ChunkType.fixed, "n", none, none⟩, 0, some 2⟩] with
    | false => rfl
    | true => exact absurd (h.mp hb) (by norm_num)
  · exact (h2 _ [] rfl).mpr (by norm_num)
  · have h := h2 (⟨⟨"i", "c", "f", 1, 1, ChunkType.fixed, "n", none, none⟩, 0.29, none⟩ :
      SearchResult) [] rfl
    cases hb : qualityGate
        [⟨⟨"i", "c", "f", 1, 1, ChunkType.fixed, "n", none, none⟩, 0.29, none⟩] with
    | false => rfl
    | true => exact absurd (h.mp hb) (by norm_num)

/-- C4: for every analysis-mode request on which the quality gate fails,
the response stream consists of exactly three events in this order — a
`sources` event carrying an empty result list, one `token` event carrying
the fixed refusal message, and a terminal `done` event — and no generation
(chat completion) call is made at all. -/
theorem claim_c4_gate_failure_stream (config : ModeConfig) (query : String)
    (candidates : List SearchResult) (outcome : GradeOutcome)
    (deltas : List (Option String)) (topKBody : Option Nat)
    (hgate : qualityGate
      (rerankResults candidates (topKBody.getD config.defaultTopK) outcome) = false) :
    (runAnalysis config query candidates outcome deltas topKBody).events =
      [StreamEvent.sources [], StreamEvent.token NO_RESULTS_MESSAGE, StreamEvent.done] ∧
    (runAnalysis config query candidates outcome deltas topKBody).generation = none := by
  constructor <;> simp [runAnalysis, hgate]

theorem claim_c4_witness :
    qualityGate (rerankResults []
      ((none : Option Nat).getD (⟨"sys", 1, none⟩ : ModeConfig).defaultTopK)
      GradeOutcome.threw) = false ∧
    ((runAnalysis ⟨"sys", 1, none⟩ "q" [] GradeOutcome.threw [] none).events =
      [StreamEvent.sources [], StreamEvent.token NO_RESULTS_MESSAGE, StreamEvent.done] ∧
    (runAnalysis ⟨"sys", 1, none⟩ "q" [] GradeOutcome.threw [] none).generation = none) :=
  ⟨by decide,
    claim_c4_gate_failure_stream ⟨"sys", 1, none⟩ "q" [] GradeOutcome.threw [] none (by decide)⟩

/-- C8: in every analysis-mode request whose mode has a (non-empty)
`queryPrefix`, the prefixed text is used only as the embedding input; the
reranker always receives the original, unaugmented user query; and the
generation call is untouched by the prefix: its user message is built from
the context block and the literal query (never the prefixed variant), and
it is identical to the one produced by the same mode with no
`queryPrefix`. -/
theorem claim_c8_prefix_decoupling (config : ModeConfig) (query : String)
    (candidates : List SearchResult) (outcome : GradeOutcome)
    (deltas : List (Option String)) (topKBody : Option Nat)
    (p : String) (hp : config.queryPrefix = some p) (hpne : p ≠ "") :
    (runAnalysis config query candidates outcome deltas topKBody).embedInput = p ++ query ∧
    (runAnalysis config query candidates outcome deltas topKBody).rerankQuery = query ∧
    (runAnalysis config query candidates outcome deltas topKBody).generation =
      (runAnalysis { config with queryPrefix := none } query candidates outcome deltas
        topKBody).generation ∧
    ∀ g ∈ (runAnalysis config query candidates outcome deltas topKBody).generation,
      g.2 = userMessage
        (contextOf (rerankResults candidates (topKBody.getD config.defaultTopK) outcome))
        query := by
  refine ⟨?_, runAnalysis_rerankQuery config query candidates outcome deltas topKBody, ?_, ?_⟩
  · rw [runAnalysis_embedInput]
    simp [searchQueryOf, hp, hpne]
  · rw [runAnalysis_generation, runAnalysis_generation]
  · intro g hg
    rw [runAnalysis_generation] at hg
    rcases hgate : qualityGate
        (rerankResults candidates (topKBody.getD config.defaultTopK) outcome) with _ | _
    · rw [hgate] at hg
      simp at hg
    · rw [hgate] at hg
      simp only [if_true, Option.mem_def, Option.some.injEq] at hg
      rw [← hg]

theorem claim_c8_witness :
    (⟨"sys", 1, some "pre "⟩ : ModeConfig).queryPrefix = some "pre " ∧ ("pre " : String) ≠ "" ∧
    ((runAnalysis ⟨"sys", 1, some "pre "⟩ "q" [] GradeOutcome.threw [] none).embedInput
        = "pre " ++ "q" ∧
     (runAnalysis ⟨"sys", 1, some "pre "⟩ "q" [] GradeOutcome.threw [] none).rerankQuery = "q" ∧
     (runAnalysis ⟨"sys", 1, some "pre "⟩ "q" [] GradeOutcome.threw [] none).generation =
       (runAnalysis ⟨"sys", 1, none⟩ "q" [] GradeOutcome.threw [] none).generation ∧
     ∀ g ∈ (runAnalysis ⟨"sys", 1, some "pre "⟩ "q" [] GradeOutcome.threw [] none).generation,
       g.2 = userMessage
         (contextOf (rerankResults []
           ((none : Option Nat).getD (⟨"sys", 1, some "pre "⟩ : ModeConfig).defaultTopK)
           GradeOutcome.threw)) "q") :=
  ⟨rfl, by decide,
    claim_c8_prefix_decoupling ⟨"sys", 1, some "pre "⟩ "q" [] GradeOutcome.threw [] none
      "pre " rfl (by decide)⟩

/-- C9: the file-context endpoint queries the vector index with a zero
vector of the embedding dimensionality, `topK` 200, and an equality filter
on the `filePath` metadata field; and it returns the full chunk list parsed
from the index's matches (a permutation — nothing dropped), sorted
ascending by `startLine` (reading order), with the similarity scores never
consulted (erasing every match's score leaves the output unchanged). -/
theorem claim_c9_file_context (fp : String) (ms : List IndexMatch) :
    (fileContextQuery fp).vector = List.replicate EMBEDDING_DIMENSIONS 0 ∧
    (fileContextQuery fp).topK = 200 ∧
    (fileContextQuery fp).filterEq = some ("filePath", fp) ∧
    (fileContextChunks ms).Pairwise (fun a b => a.startLine ≤ b.startLine) ∧
    (fileContextChunks ms).Perm (ms.map parseChunk) ∧
    fileContextChunks (ms.map fun m => { m with score := none }) = fileContextChunks ms := by
  refine ⟨rfl, rfl, rfl, sortByStartLine_sorted _, sortByStartLine_perm _, ?_⟩
  unfold fileContextChunks
  congr 1
  rw [List.map_map]
  rfl
